import Mathlib

/-!
Verification of the CHOpt core (Star Power optimiser for Clone Hero).

This file gives a shallow embedding, over exact rationals, of the parts of
the code that the verified claims are about:

* the time model (`TimeConverter`, `SongHeader`, `SyncTrack`, from
  `src/time.cpp`),
* the note-track constructor (`NoteTrack`, from `src/time.cpp`),
* the SP bar (`SpBar`, from `sp.hpp`), and
* the SP engine (`SpData` and its propagation routines, from `src/sp.cpp`).

Doubles are modelled as rationals, so every statement about the floating
point code holds exactly here ("up to floating-point tolerance" in the
spec's phrasing).  C++ iterator loops are modelled as structural recursion
over the corresponding list suffix; `std::lower_bound` on the sorted
containers the code maintains is modelled by `takeWhile`/`dropWhile` style
splits, which agree with binary search on sorted data.
-/

namespace CHOpt

/-- Anchor table entry of the time converter: a `{measure, beat}` pair at a
time-signature change (`TimeConverter` in `src/time.cpp`). -/
structure MeasureTimestamp where
  measure : ℚ
  beat : ℚ
deriving DecidableEq, Repr

/-- A time signature `{position, numerator, denominator}` of the sync track. -/
structure TimeSignature where
  position : ℕ
  numerator : ℕ
  denominator : ℕ
deriving DecidableEq, Repr

/-- A tempo entry `{position, bpm}` of the sync track. -/
structure BPM where
  position : ℕ
  bpm : ℕ
deriving DecidableEq, Repr

/-- The sync track: time signatures and tempos (`SyncTrack` in the source). -/
structure SyncTrack where
  time_sigs : List TimeSignature
  bpms : List BPM
deriving DecidableEq, Repr

/-- `SyncTrack::SyncTrack` (src/time.cpp, lines 171-176): moves both vectors
in place, with no validation whatsoever. -/
def SyncTrack.make (time_sigs : List TimeSignature) (bpms : List BPM) : SyncTrack :=
  ⟨time_sigs, bpms⟩

/-- The song header `{offset, resolution}`. -/
structure SongHeader where
  offset : ℚ
  resolution : ℚ
deriving DecidableEq, Repr

/-- `SongHeader::SongHeader` (src/time.cpp, lines 138-145): throws
`std::invalid_argument` when the resolution is `<= 0`, stores the fields
otherwise.  The throw is modelled by `Except.error`. -/
def SongHeader.make (offset resolution : ℚ) : Except String SongHeader :=
  if resolution ≤ 0 then
    Except.error "Songs with resolution < 0 are invalid"
  else
    Except.ok ⟨offset, resolution⟩

/-- `DEFAULT_BEAT_RATE = 4.0` of the time model. -/
def DEFAULT_BEAT_RATE : ℚ := 4

/-- The anchor-table construction loop of `TimeConverter::TimeConverter`:
walking the time signatures it accumulates `last_measure` using the previous
beat rate and emits one `{measure, beat}` anchor per change; the final
`last_beat_rate` is returned alongside.  Tick differences are taken in `ℚ`;
the C++ computes them in unsigned arithmetic, which agrees whenever the
ticks are monotone (the situation the round-trip theorem assumes). -/
def make_timestamps (resolution : ℚ) :
    ℕ → ℚ → ℚ → List TimeSignature → List MeasureTimestamp × ℚ
  | _, last_beat_rate, _, [] => ([], last_beat_rate)
  | last_tick, last_beat_rate, last_measure, ts :: rest =>
    let m := last_measure +
      ((ts.position : ℚ) - (last_tick : ℚ)) / (resolution * last_beat_rate)
    let r := make_timestamps resolution ts.position
      ((ts.numerator : ℚ) * DEFAULT_BEAT_RATE / (ts.denominator : ℚ)) m rest
    (⟨m, (ts.position : ℚ) / resolution⟩ :: r.1, r.2)

/-- The time converter's measure table: the anchor list plus the last known
beat rate. -/
structure TimeConverter where
  measure_timestamps : List MeasureTimestamp
  last_beat_rate : ℚ
deriving DecidableEq, Repr

/-- `TimeConverter::TimeConverter`: builds the anchor table from the sync
track's time signatures, starting at tick 0, rate 4, measure 0. -/
def TimeConverter.make (sync_track : SyncTrack) (resolution : ℚ) : TimeConverter :=
  let r := make_timestamps resolution 0 DEFAULT_BEAT_RATE 0 sync_track.time_sigs
  ⟨r.1, r.2⟩

/-- The anchors strictly before beat `b`: the prefix taken by
`std::lower_bound` with comparator `x.beat < y` (the table is sorted). -/
def anchorsBeforeBeat (b : ℚ) : List MeasureTimestamp → List MeasureTimestamp
  | [] => []
  | a :: rest => if a.beat < b then a :: anchorsBeforeBeat b rest else []

/-- The anchors from beat `b` on: the suffix starting at the anchor
`std::lower_bound` with comparator `x.beat < y` finds. -/
def anchorsFromBeat (b : ℚ) : List MeasureTimestamp → List MeasureTimestamp
  | [] => []
  | a :: rest => if a.beat < b then anchorsFromBeat b rest else a :: rest

/-- The anchors strictly before measure `m` (lower bound by `x.measure < y`). -/
def anchorsBeforeMeasure (m : ℚ) : List MeasureTimestamp → List MeasureTimestamp
  | [] => []
  | a :: rest => if a.measure < m then a :: anchorsBeforeMeasure m rest else []

/-- The anchors from measure `m` on. -/
def anchorsFromMeasure (m : ℚ) : List MeasureTimestamp → List MeasureTimestamp
  | [] => []
  | a :: rest => if a.measure < m then anchorsFromMeasure m rest else a :: rest

/-- `TimeConverter::beats_to_measures` (src/time.cpp, lines 46-62).  Past the
last anchor it extrapolates with the last known beat rate
(`Beat::to_measure(rate)` divides by the rate); before the first anchor it
extrapolates with `DEFAULT_BEAT_RATE`; otherwise it interpolates linearly
between the bracketing anchors.  The C++ dereferences `back()` of a table the
constructor asserts nonempty; the empty case here returns 0. -/
def TimeConverter.beats_to_measures (conv : TimeConverter) (beats : ℚ) : ℚ :=
  match anchorsFromBeat beats conv.measure_timestamps with
  | [] =>
    let back := conv.measure_timestamps.getLastD ⟨0, 0⟩
    back.measure + (beats - back.beat) / conv.last_beat_rate
  | pos :: _ =>
    match anchorsBeforeBeat beats conv.measure_timestamps with
    | [] => pos.measure - (pos.beat - beats) / DEFAULT_BEAT_RATE
    | b0 :: brest =>
      let prev := (b0 :: brest).getLastD ⟨0, 0⟩
      prev.measure +
        (pos.measure - prev.measure) * ((beats - prev.beat) / (pos.beat - prev.beat))

/-- `TimeConverter::measures_to_beats` (src/time.cpp, lines 64-80), the
mirror image of `beats_to_measures` (`Measure::to_beat(rate)` multiplies by
the rate). -/
def TimeConverter.measures_to_beats (conv : TimeConverter) (measures : ℚ) : ℚ :=
  match anchorsFromMeasure measures conv.measure_timestamps with
  | [] =>
    let back := conv.measure_timestamps.getLastD ⟨0, 0⟩
    back.beat + (measures - back.measure) * conv.last_beat_rate
  | pos :: _ =>
    match anchorsBeforeMeasure measures conv.measure_timestamps with
    | [] => pos.beat - (pos.measure - measures) * DEFAULT_BEAT_RATE
    | b0 :: brest =>
      let prev := (b0 :: brest).getLastD ⟨0, 0⟩
      prev.beat +
        (pos.beat - prev.beat) * ((measures - prev.measure) / (pos.measure - prev.measure))

/-- A note `{position, length, colour}` (the `is_forced`/`is_tap` flags play
no role in the claims about the `NoteTrack` constructor and are omitted;
colours are numbered as in the fret codes). -/
structure Note where
  position : ℕ
  length : ℕ
  colour : ℕ
deriving DecidableEq, Repr

/-- The comparator of the `std::stable_sort` call in `NoteTrack::NoteTrack`:
`std::tie(lhs.position, lhs.colour) < std::tie(rhs.position, rhs.colour)`,
presented as its reflexive closure so a sorting function can use it. -/
def note_le (a b : Note) : Prop :=
  a.position < b.position ∨ (a.position = b.position ∧ a.colour ≤ b.colour)

instance : DecidableRel note_le := fun a b => by
  unfold note_le
  infer_instance

instance : IsTotal Note note_le where
  total a b := by
    unfold note_le
    omega

instance : IsTrans Note note_le where
  trans a b c := by
    unfold note_le
    omega

/-- The deduplication loop of `NoteTrack::NoteTrack` (src/time.cpp, lines
158-167): walking the sorted list, `prev_note` is pushed whenever the
current note differs in `(position, colour)`; equal notes overwrite
`prev_note`, so each group of duplicates contributes exactly one note. -/
def dedup_notes (prev : Note) : List Note → List Note
  | [] => [prev]
  | p :: rest =>
    if p.position = prev.position ∧ p.colour = prev.colour then
      dedup_notes p rest
    else
      prev :: dedup_notes p rest

/-- A star-power phrase `{position, length}` (half-open tick range). -/
structure StarPower where
  position : ℤ
  length : ℤ
deriving DecidableEq, Repr

/-- A chart event (only carried through; never inspected by the core). -/
structure ChartEvent where
  position : ℕ
  name : String
deriving DecidableEq, Repr

/-- A note track after construction. -/
structure NoteTrack where
  notes : List Note
  sp_phrases : List StarPower
  events : List ChartEvent
deriving DecidableEq, Repr

/-- `NoteTrack::NoteTrack` (src/time.cpp, lines 147-169): stable-sorts the
notes by `(position, colour)` and collapses runs of equal `(position,
colour)`.  `std::stable_sort` is modelled by `List.insertionSort`, which is
also a stable sort producing the `note_le`-sorted permutation. -/
def NoteTrack.make (notes : List Note) (sp_phrases : List StarPower)
    (events : List ChartEvent) : NoteTrack :=
  let sorted := notes.insertionSort note_le
  let deduped :=
    match sorted with
    | [] => []
    | n :: rest => dedup_notes n rest
  ⟨deduped, sp_phrases, events⟩

/-- `SpBar` (sp.hpp, lines 29-61): a `(min, max)` pair of SP fractions.  The
constructor stores its arguments verbatim. -/
structure SpBar where
  min : ℚ
  max : ℚ
deriving DecidableEq, Repr

/-- `SpBar::add_phrase`: adds `SP_PHRASE_AMOUNT = 0.25` to both fields and
clamps each at 1.0 from above. -/
def SpBar.add_phrase (b : SpBar) : SpBar :=
  ⟨Min.min (b.min + 1/4) 1, Min.min (b.max + 1/4) 1⟩

/-- `SpBar::full_enough_to_activate`: `max >= 0.5`. -/
def SpBar.full_enough_to_activate (b : SpBar) : Prop :=
  1/2 ≤ b.max

/-- The invariant the spec claims for `SpBar`: `0 ≤ min ≤ max ≤ 1`. -/
def SpBar.inv (b : SpBar) : Prop :=
  0 ≤ b.min ∧ b.min ≤ b.max ∧ b.max ≤ 1

instance : DecidablePred SpBar.inv := fun b => by
  unfold SpBar.inv
  infer_instance

/-- `phrase_contains_pos` (src/sp.cpp, lines 23-29): membership of a tick in
the half-open phrase range. -/
def phrase_contains_pos (phrase : StarPower) (position : ℤ) : Bool :=
  decide (phrase.position ≤ position ∧ position < phrase.position + phrase.length)

/-- A `(Beat, Measure)` pair carried together (`Position` in the source). -/
structure Position where
  beat : ℚ
  measure : ℚ
deriving DecidableEq, Repr

/-- A beat-rate entry `{position, net_sp_gain_rate}` (`SpData::BeatRate`). -/
structure BeatRate where
  position : ℚ
  net_sp_gain_rate : ℚ
deriving DecidableEq, Repr

/-- A whammy range `{start, end}` (`SpData::WhammyRange`; `end` is a Lean
keyword, so the fields are `rstart`/`rend`). -/
structure WhammyRange where
  rstart : Position
  rend : Position
deriving DecidableEq, Repr

/-- `SpData::DEFAULT_NET_SP_GAIN_RATE = 1 / 480.0`. -/
def DEFAULT_NET_SP_GAIN_RATE : ℚ := 1/480

/-- `SpData::MEASURES_PER_BAR = 8.0`. -/
def MEASURES_PER_BAR : ℚ := 8

/-- `SpData::SP_GAIN_RATE = 1 / 30.0`. -/
def SP_GAIN_RATE : ℚ := 1/30

/-- `SpData::form_beat_rates` (src/sp.cpp, lines 31-49): one entry per time
signature, at `Beat(tick / resolution)`, with
`net_sp_gain_rate = SP_GAIN_RATE - 1 / (MEASURES_PER_BAR * (num * 4 / den))`. -/
def form_beat_rates (resolution : ℚ) (sync_track : SyncTrack) : List BeatRate :=
  sync_track.time_sigs.map fun ts =>
    ⟨(ts.position : ℚ) / resolution,
     SP_GAIN_RATE - 1 / (MEASURES_PER_BAR *
       ((ts.numerator : ℚ) * DEFAULT_BEAT_RATE / (ts.denominator : ℚ)))⟩

/-- The raw whammy-range candidates of the `SpData` constructor (src/sp.cpp,
lines 60-82): for every note span of nonzero length whose start tick lies in
some SP phrase, the beat range from the adjusted start to the span's end,
kept only when nonempty.  The start adjustment
`seconds_to_beats(beats_to_seconds(start) - 0.07 * early_whammy + lazy_whammy)`
goes through the tempo-based second conversions, whose code is not part of
the analysed sources; it enters here as an arbitrary function `adjust` on
beats, which the verified invariants do not depend on. -/
def raw_whammy_ranges (resolution : ℚ) (adjust : ℚ → ℚ)
    (note_spans : List (ℤ × ℤ)) (phrases : List StarPower) : List (ℚ × ℚ) :=
  note_spans.filterMap fun span =>
    if span.2 = 0 then none
    else if phrases.any (fun p => phrase_contains_pos p span.1) then
      let beat_start := adjust ((span.1 : ℚ) / resolution)
      let beat_end := ((span.1 + span.2 : ℤ) : ℚ) / resolution
      if beat_start < beat_end then some (beat_start, beat_end) else none
    else none

/-- The ordering `std::sort` uses on `std::tuple<Beat, Beat>`: lexicographic,
as its reflexive closure. -/
def pair_le (a b : ℚ × ℚ) : Prop :=
  a.1 < b.1 ∨ (a.1 = b.1 ∧ a.2 ≤ b.2)

instance : DecidableRel pair_le := fun a b => by
  unfold pair_le
  infer_instance

instance : IsTotal (ℚ × ℚ) pair_le where
  total a b := by
    unfold pair_le
    rcases lt_trichotomy a.1 b.1 with h | h | h
    · exact Or.inl (Or.inl h)
    · rcases le_total a.2 b.2 with h2 | h2
      · exact Or.inl (Or.inr ⟨h, h2⟩)
      · exact Or.inr (Or.inr ⟨h.symm, h2⟩)
    · exact Or.inr (Or.inl h)

instance : IsTrans (ℚ × ℚ) pair_le where
  trans a b c hab hbc := by
    unfold pair_le at *
    rcases hab with h | ⟨he, h2⟩ <;> rcases hbc with h' | ⟨he', h2'⟩
    · exact Or.inl (h.trans h')
    · exact Or.inl (he' ▸ h)
    · exact Or.inl (he ▸ h')
    · exact Or.inr ⟨he.trans he', h2.trans h2'⟩

/-- The merge loop of the `SpData` constructor (src/sp.cpp, lines 87-98):
`pair` absorbs every following range whose start is `<=` its end (taking the
max of the ends) and is emitted when a gap appears. -/
def merge_ranges_loop (pair : ℚ × ℚ) : List (ℚ × ℚ) → List (ℚ × ℚ)
  | [] => [pair]
  | p :: rest =>
    if p.1 ≤ pair.2 then
      merge_ranges_loop (pair.1, Max.max pair.2 p.2) rest
    else
      pair :: merge_ranges_loop p rest

/-- Merging a sorted range list, empty list giving no ranges. -/
def merge_ranges : List (ℚ × ℚ) → List (ℚ × ℚ)
  | [] => []
  | p :: rest => merge_ranges_loop p rest

/-- The SP engine's state: the time converter, the beat-rate table and the
whammy ranges (`SpData`'s data members). -/
structure SpData where
  converter : TimeConverter
  beat_rates : List BeatRate
  whammy_ranges : List WhammyRange
deriving DecidableEq, Repr

/-- `SpData::SpData` (src/sp.cpp, lines 51-106): collects the raw whammy
ranges, sorts them, merges overlapping/adjacent ones and converts the
endpoints to `Position` through the converter. -/
def SpData.make (note_spans : List (ℤ × ℤ)) (phrases : List StarPower)
    (resolution : ℚ) (sync_track : SyncTrack) (adjust : ℚ → ℚ) : SpData :=
  let conv := TimeConverter.make sync_track resolution
  let ranges := raw_whammy_ranges resolution adjust note_spans phrases
  let sorted := ranges.insertionSort pair_le
  let merged := merge_ranges sorted
  ⟨conv, form_beat_rates resolution sync_track,
   merged.map fun pr =>
     ⟨⟨pr.1, conv.beats_to_measures pr.1⟩, ⟨pr.2, conv.beats_to_measures pr.2⟩⟩⟩

/-- The beat rates strictly before beat `b`: prefix of the `std::lower_bound`
split with comparator `ts.position < y` (the table is sorted by position). -/
def ratesBefore (b : ℚ) : List BeatRate → List BeatRate
  | [] => []
  | r :: rs => if r.position < b then r :: ratesBefore b rs else []

/-- The beat rates from beat `b` on: the suffix `std::lower_bound` finds. -/
def ratesFrom (b : ℚ) : List BeatRate → List BeatRate
  | [] => []
  | r :: rs => if r.position < b then ratesFrom b rs else r :: rs

/-- The while loop of `SpData::propagate_over_whammy_range` (src/sp.cpp,
lines 173-185): `p` is the active rate, `rest` the rates after it.  Each
iteration integrates to the next rate change (or `e`), returns `-1.0` the
moment the balance would be negative, and otherwise clamps at 1.0 and
advances. -/
def propLoop : BeatRate → List BeatRate → ℚ → ℚ → ℚ → ℚ
  | p, [], start, e, sp =>
    if start < e then
      let sp2 := sp + (e - start) * p.net_sp_gain_rate
      if sp2 < 0 then -1 else Min.min sp2 1
    else sp
  | p, q :: rest, start, e, sp =>
    if start < e then
      let sub := Min.min e q.position
      let sp2 := sp + (sub - start) * p.net_sp_gain_rate
      if sp2 < 0 then -1 else propLoop q rest sub e (Min.min sp2 1)
    else sp

/-- `SpData::propagate_over_whammy_range` (src/sp.cpp, lines 158-188) on an
explicit rate table.  When some rate lies strictly before `start` the loop
begins at the last such rate; otherwise the prelude integrates at
`DEFAULT_NET_SP_GAIN_RATE` up to the first rate change (the C++ dereferences
the begin iterator there, so an empty table is undefined behaviour in the
source; constructed songs always carry a time signature, and the `-1` placed
here is never relied upon). -/
def powr (rates : List BeatRate) (start e sp : ℚ) : ℚ :=
  match ratesBefore start rates with
  | b0 :: bs =>
    propLoop ((b0 :: bs).getLastD ⟨0, 0⟩) (ratesFrom start rates) start e sp
  | [] =>
    match rates with
    | [] => -1
    | r0 :: rs =>
      let sub := Min.min e r0.position
      propLoop r0 rs sub e (Min.min (sp + (sub - start) * DEFAULT_NET_SP_GAIN_RATE) 1)

/-- The whammy ranges from the first one ending after beat `b`: the
`std::lower_bound` split with comparator `x.end.beat <= y.beat` used by
`propagate_sp_over_whammy_max` and `activation_end_point`. -/
def dropRangesBefore (b : ℚ) : List WhammyRange → List WhammyRange
  | [] => []
  | r :: rs => if r.rend.beat ≤ b then dropRangesBefore b rs else r :: rs

/-- The while loop of `SpData::propagate_sp_over_whammy_max` (src/sp.cpp,
lines 114-134): drain `(Δmeasure)/8` across the gap up to the next whammy
range (returning the running value if it goes negative), integrate across
the range via `propLoop`, and fall through to a final bare drain to `e`. -/
def spMaxLoop (rates : List BeatRate) :
    List WhammyRange → Position → Position → ℚ → ℚ
  | [], start, e, sp => sp - (e.measure - start.measure) / MEASURES_PER_BAR
  | r :: rs, start, e, sp =>
    if r.rstart.beat < e.beat then
      if r.rstart.beat > start.beat then
        let sp2 := sp - (r.rstart.measure - start.measure) / MEASURES_PER_BAR
        if sp2 < 0 then sp2
        else
          let sp3 := powr rates r.rstart.beat (Min.min e.beat r.rend.beat) sp2
          if sp3 < 0 ∨ e.beat ≤ r.rend.beat then sp3
          else spMaxLoop rates rs r.rend e sp3
      else
        let sp3 := powr rates start.beat (Min.min e.beat r.rend.beat) sp
        if sp3 < 0 ∨ e.beat ≤ r.rend.beat then sp3
        else spMaxLoop rates rs r.rend e sp3
    else sp - (e.measure - start.measure) / MEASURES_PER_BAR

/-- `SpData::propagate_sp_over_whammy_max` (src/sp.cpp, lines 108-135). -/
def SpData.propagate_sp_over_whammy_max (sd : SpData) (start e : Position)
    (sp : ℚ) : ℚ :=
  spMaxLoop sd.beat_rates (dropRangesBefore start.beat sd.whammy_ranges) start e sp

/-- `SpData::propagate_sp_over_whammy_min` (src/sp.cpp, lines 137-156):
whammy is credited only up to `min(end, required_whammy_end)` (via the max
propagator), bare drain is applied for the remainder, and the result is
clamped to `>= 0`. -/
def SpData.propagate_sp_over_whammy_min (sd : SpData) (start e : Position)
    (sp : ℚ) (required_whammy_end : Position) : ℚ :=
  let s1 :=
    if required_whammy_end.beat > start.beat then
      let whammy_end :=
        if required_whammy_end.beat < e.beat then required_whammy_end else e
      (required_whammy_end, sd.propagate_sp_over_whammy_max start whammy_end sp)
    else (start, sp)
  let sp2 :=
    if s1.1.beat < e.beat then s1.2 - (e.measure - s1.1.measure) / MEASURES_PER_BAR
    else s1.2
  Max.max sp2 0

/-- The while loop of `SpData::whammy_propagation_endpoint` (src/sp.cpp,
lines 285-298): like `propLoop`, but on exhaustion it solves linearly for
the beat at which the balance hits zero and returns that beat; if the
balance survives to `e` it returns `e`. -/
def wpeLoop : BeatRate → List BeatRate → ℚ → ℚ → ℚ → ℚ
  | p, [], start, e, sp =>
    if start < e then
      let gain := (e - start) * p.net_sp_gain_rate
      if sp + gain < 0 then start + (-sp / p.net_sp_gain_rate) else e
    else e
  | p, q :: rest, start, e, sp =>
    if start < e then
      let sub := Min.min e q.position
      let gain := (sub - start) * p.net_sp_gain_rate
      if sp + gain < 0 then start + (-sp / p.net_sp_gain_rate)
      else wpeLoop q rest sub e (Min.min (sp + gain) 1)
    else e

/-- `SpData::whammy_propagation_endpoint` (src/sp.cpp, lines 269-301) on an
explicit rate table; same lower-bound prelude as `powr`. -/
def wpe (rates : List BeatRate) (start e sp : ℚ) : ℚ :=
  match ratesBefore start rates with
  | b0 :: bs =>
    wpeLoop ((b0 :: bs).getLastD ⟨0, 0⟩) (ratesFrom start rates) start e sp
  | [] =>
    match rates with
    | [] => e
    | r0 :: rs =>
      let sub := Min.min e r0.position
      wpeLoop r0 rs sub e (Min.min (sp + (sub - start) * DEFAULT_NET_SP_GAIN_RATE) 1)

/-- The while loop of `SpData::activation_end_point` (src/sp.cpp, lines
226-254) plus its epilogue: the same traversal as `spMaxLoop`, except that
when the bare drain across a gap (or the final drain) exceeds the balance it
returns the position `start.measure + sp * 8` measures in, and when the
balance dies inside a whammy range it returns the beat computed by `wpe`. -/
def actLoop (conv : TimeConverter) (rates : List BeatRate) :
    List WhammyRange → Position → Position → ℚ → Position
  | [], start, e, sp =>
    let d := (e.measure - start.measure) / MEASURES_PER_BAR
    if sp < d then
      let em := start.measure + sp * MEASURES_PER_BAR
      ⟨conv.measures_to_beats em, em⟩
    else e
  | r :: rs, start, e, sp =>
    if r.rstart.beat < e.beat then
      if r.rstart.beat > start.beat then
        let d := (r.rstart.measure - start.measure) / MEASURES_PER_BAR
        if sp < d then
          let em := start.measure + sp * MEASURES_PER_BAR
          ⟨conv.measures_to_beats em, em⟩
        else
          let sp2 := sp - d
          let sp3 := powr rates r.rstart.beat (Min.min e.beat r.rend.beat) sp2
          if sp3 < 0 then
            let eb := wpe rates r.rstart.beat e.beat sp2
            ⟨eb, conv.beats_to_measures eb⟩
          else if e.beat ≤ r.rend.beat then e
          else actLoop conv rates rs r.rend e sp3
      else
        let sp3 := powr rates start.beat (Min.min e.beat r.rend.beat) sp
        if sp3 < 0 then
          let eb := wpe rates start.beat e.beat sp
          ⟨eb, conv.beats_to_measures eb⟩
        else if e.beat ≤ r.rend.beat then e
        else actLoop conv rates rs r.rend e sp3
    else
      let d := (e.measure - start.measure) / MEASURES_PER_BAR
      if sp < d then
        let em := start.measure + sp * MEASURES_PER_BAR
        ⟨conv.measures_to_beats em, em⟩
      else e

/-- `SpData::activation_end_point` (src/sp.cpp, lines 220-265). -/
def SpData.activation_end_point (sd : SpData) (start e : Position)
    (sp : ℚ) : Position :=
  actLoop sd.converter sd.beat_rates
    (dropRangesBefore start.beat sd.whammy_ranges) start e sp

/-! ### Concrete test fixtures

Three small `SpData` values, each built through the real `SpData.make`
pipeline at resolution 192 with the identity start adjustment:

* `spdataA`: one 4/4 time signature, no notes, hence no whammy ranges;
* `spdataB`: one 4/4 time signature and a sustain at tick 768 of length 768
  inside a phrase, giving the single whammy range over beats `[4, 8]`;
* `spdataC`: one 3/4 time signature (negative net SP gain rate `-1/120`)
  and a sustain covering beats `[0, 16]` inside a phrase. -/

/-- A 4/4 song with no sustains: drain only. -/
def spdataA : SpData := SpData.make [] [] 192 (SyncTrack.make [⟨0, 4, 4⟩] []) id

/-- A 4/4 song with one whammied sustain over beats `[4, 8]`. -/
def spdataB : SpData :=
  SpData.make [(768, 768)] [⟨768, 10⟩] 192 (SyncTrack.make [⟨0, 4, 4⟩] []) id

/-- A 3/4 song whose single whammy range covers beats `[0, 16]`. -/
def spdataC : SpData :=
  SpData.make [(0, 3072)] [⟨0, 100⟩] 192 (SyncTrack.make [⟨0, 3, 4⟩] []) id

/-- `spdataA` evaluated: one anchor at the origin, last beat rate 4, the
single 4/4 beat rate `1/480`, no whammy ranges. -/
lemma spdataA_eq : spdataA = ⟨⟨[⟨0, 0⟩], 4⟩, [⟨0, 1/480⟩], []⟩ := by
  norm_num [spdataA, SpData.make, SyncTrack.make, TimeConverter.make,
    make_timestamps, form_beat_rates, raw_whammy_ranges, merge_ranges,
    SP_GAIN_RATE, MEASURES_PER_BAR, DEFAULT_BEAT_RATE]

/-- `spdataB` evaluated: like `spdataA` plus the whammy range from
`(beat 4, measure 1)` to `(beat 8, measure 2)`. -/
lemma spdataB_eq :
    spdataB = ⟨⟨[⟨0, 0⟩], 4⟩, [⟨0, 1/480⟩], [⟨⟨4, 1⟩, ⟨8, 2⟩⟩]⟩ := by
  norm_num [spdataB, SpData.make, SyncTrack.make, TimeConverter.make,
    make_timestamps, form_beat_rates, raw_whammy_ranges, merge_ranges,
    merge_ranges_loop, phrase_contains_pos, TimeConverter.beats_to_measures,
    anchorsFromBeat, anchorsBeforeBeat, List.filterMap_cons, List.filterMap_nil,
    SP_GAIN_RATE, MEASURES_PER_BAR, DEFAULT_BEAT_RATE]

/-- `spdataC` evaluated: last beat rate 3, net SP gain rate `-1/120`, one
whammy range from `(beat 0, measure 0)` to `(beat 16, measure 16/3)`. -/
lemma spdataC_eq :
    spdataC = ⟨⟨[⟨0, 0⟩], 3⟩, [⟨0, -(1/120)⟩], [⟨⟨0, 0⟩, ⟨16, 16/3⟩⟩]⟩ := by
  norm_num [spdataC, SpData.make, SyncTrack.make, TimeConverter.make,
    make_timestamps, form_beat_rates, raw_whammy_ranges, merge_ranges,
    merge_ranges_loop, phrase_contains_pos, TimeConverter.beats_to_measures,
    anchorsFromBeat, anchorsBeforeBeat, List.filterMap_cons, List.filterMap_nil,
    SP_GAIN_RATE, MEASURES_PER_BAR, DEFAULT_BEAT_RATE]

/-! ### Shared helper lemmas -/

lemma mem_dropRangesBefore {b : ℚ} {l : List WhammyRange} {x : WhammyRange}
    (h : x ∈ dropRangesBefore b l) : x ∈ l := by
  induction l with
  | nil => simp [dropRangesBefore] at h
  | cons r rs ih =>
    by_cases hr : r.rend.beat ≤ b
    · simp only [dropRangesBefore, if_pos hr] at h
      exact List.mem_cons_of_mem r (ih h)
    · simpa [dropRangesBefore, if_neg hr] using h

lemma dropRangesBefore_sublist (b : ℚ) (l : List WhammyRange) :
    (dropRangesBefore b l).Sublist l := by
  induction l with
  | nil => simp [dropRangesBefore]
  | cons r rs ih =>
    by_cases hr : r.rend.beat ≤ b
    · simp only [dropRangesBefore, if_pos hr]
      exact ih.cons r
    · simp [dropRangesBefore, if_neg hr]

lemma dropRangesBefore_rend {b : ℚ} {l : List WhammyRange}
    (hs : List.Pairwise (fun a c : WhammyRange => a.rend.beat ≤ c.rend.beat) l) :
    ∀ x ∈ dropRangesBefore b l, b < x.rend.beat := by
  induction l with
  | nil => simp [dropRangesBefore]
  | cons r rs ih =>
    rcases List.pairwise_cons.1 hs with ⟨hr, hrs⟩
    by_cases hle : r.rend.beat ≤ b
    · simp only [dropRangesBefore, if_pos hle]
      exact ih hrs
    · simp only [dropRangesBefore, if_neg hle]
      intro x hx
      rcases List.mem_cons.1 hx with rfl | hx
      · exact lt_of_not_le hle
      · exact lt_of_lt_of_le (lt_of_not_le hle) (hr x hx)

lemma ratesFrom_sublist (b : ℚ) (l : List BeatRate) : (ratesFrom b l).Sublist l := by
  induction l with
  | nil => simp [ratesFrom]
  | cons r rs ih =>
    by_cases hr : r.position < b
    · simp only [ratesFrom, if_pos hr]
      exact ih.cons r
    · simp [ratesFrom, if_neg hr]

lemma ratesFrom_ge {b : ℚ} {l : List BeatRate}
    (hs : List.Pairwise (fun a c : BeatRate => a.position ≤ c.position) l) :
    ∀ q ∈ ratesFrom b l, b ≤ q.position := by
  induction l with
  | nil => simp [ratesFrom]
  | cons r rs ih =>
    rcases List.pairwise_cons.1 hs with ⟨hr, hrs⟩
    by_cases hlt : r.position < b
    · simp only [ratesFrom, if_pos hlt]
      exact ih hrs
    · simp only [ratesFrom, if_neg hlt]
      intro q hq
      rcases List.mem_cons.1 hq with rfl | hq
      · exact le_of_not_lt hlt
      · exact (le_of_not_lt hlt).trans (hr q hq)

lemma ratesBefore_nil_head {b : ℚ} {r0 : BeatRate} {rs : List BeatRate}
    (h : ratesBefore b (r0 :: rs) = []) : b ≤ r0.position := by
  by_cases hlt : r0.position < b
  · simp [ratesBefore, if_pos hlt] at h
  · exact le_of_not_lt hlt

/-- `propagate_over_whammy_range` over an empty beat interval is the
identity on the SP amount (given a nonempty rate table and `sp ≤ 1`). -/
lemma powr_self {rates : List BeatRate} {x sp : ℚ}
    (hne : rates ≠ []) (hsp : sp ≤ 1) : powr rates x x sp = sp := by
  unfold powr
  cases hb : ratesBefore x rates with
  | cons b0 bs =>
    cases ratesFrom x rates with
    | nil => simp [propLoop]
    | cons q qs => simp [propLoop]
  | nil =>
    cases rates with
    | nil => exact absurd rfl hne
    | cons r0 rs =>
      have hge : x ≤ r0.position := ratesBefore_nil_head hb
      have hmin : Min.min x r0.position = x := min_eq_left hge
      simp only [hmin, sub_self, zero_mul, add_zero]
      rw [min_eq_left hsp]
      cases rs with
      | nil => simp [propLoop]
      | cons q qs => simp [propLoop]

lemma dropRangesBefore_cons_head {b : ℚ} {l : List WhammyRange}
    {r : WhammyRange} {rs : List WhammyRange}
    (h : dropRangesBefore b l = r :: rs) : b < r.rend.beat := by
  induction l with
  | nil => simp [dropRangesBefore] at h
  | cons x xs ih =>
    by_cases hx : x.rend.beat ≤ b
    · simp only [dropRangesBefore, if_pos hx] at h
      exact ih h
    · simp only [dropRangesBefore, if_neg hx] at h
      obtain ⟨rfl, _⟩ := List.cons.injEq .. ▸ h
      exact lt_of_not_le hx

/-- Over a degenerate interval (equal beat and measure at both ends) the
max propagator returns the SP amount unchanged. -/
lemma propagate_max_degenerate {sd : SpData} {a b : Position} {s : ℚ}
    (heq : a.beat = b.beat) (hmeas : a.measure = b.measure)
    (hs1 : s ≤ 1) (hrates : sd.beat_rates ≠ []) :
    sd.propagate_sp_over_whammy_max a b s = s := by
  obtain ⟨ab, am⟩ := a
  obtain ⟨bb, bm⟩ := b
  dsimp at heq hmeas
  subst heq
  subst hmeas
  unfold SpData.propagate_sp_over_whammy_max
  cases hd : dropRangesBefore ab sd.whammy_ranges with
  | nil => simp [spMaxLoop]
  | cons r rs =>
    have hrend : ab < r.rend.beat := dropRangesBefore_cons_head hd
    by_cases h1 : r.rstart.beat < ab
    · have hngap : ¬ r.rstart.beat > ab := not_lt_of_lt h1
      have hmin : Min.min ab r.rend.beat = ab := min_eq_left (le_of_lt hrend)
      simp only [spMaxLoop, h1, if_true, gt_iff_lt, hngap, if_false, hmin,
        powr_self hrates hs1]
      rw [if_pos (Or.inr (le_of_lt hrend))]
    · simp [spMaxLoop, h1]

/-! ### C1 -/

/-- C1, counterexample to the claim as stated: with no whammy ranges at
all (`spdataA`), positions `a = (beat 0, measure 0) ≤ b = (beat 8,
measure 2)` and SP `s = 0` (all valid inputs), the max propagator drains
to `-1/4` while the min variant, which clamps at zero, returns `0`; so
`propagate_sp_over_whammy_max(a,b,s) < propagate_sp_over_whammy_min(a,b,s,b)`,
refuting the claimed `≥`. -/
theorem c1_counterexample :
    spdataA.propagate_sp_over_whammy_max ⟨0, 0⟩ ⟨8, 2⟩ 0 <
      spdataA.propagate_sp_over_whammy_min ⟨0, 0⟩ ⟨8, 2⟩ 0 ⟨8, 2⟩ := by
  norm_num [spdataA_eq, SpData.propagate_sp_over_whammy_max,
    SpData.propagate_sp_over_whammy_min, dropRangesBefore, spMaxLoop,
    MEASURES_PER_BAR]

/-- C1, amended: for `a ≤ b` (beat-wise, with consistent measures on
degenerate intervals), `s ∈ [0,1]` and a nonempty beat-rate table, the
inequality `propagate_sp_over_whammy_max(a,b,s) ≥
propagate_sp_over_whammy_min(a,b,s,b)` holds provided the max-side result
is nonnegative (SP not exhausted); when it is negative, the min variant
returns the max-side value clamped to zero and the inequality reverses. -/
theorem c1_amended (sd : SpData) (a b : Position) (s : ℚ)
    (hab : a.beat ≤ b.beat) (hmeas : a.beat = b.beat → a.measure = b.measure)
    (hs0 : 0 ≤ s) (hs1 : s ≤ 1) (hrates : sd.beat_rates ≠ [])
    (hmax : 0 ≤ sd.propagate_sp_over_whammy_max a b s) :
    sd.propagate_sp_over_whammy_min a b s b ≤
      sd.propagate_sp_over_whammy_max a b s := by
  rcases lt_or_eq_of_le hab with hlt | heq
  · unfold SpData.propagate_sp_over_whammy_min
    simp only [gt_iff_lt, hlt, if_true, ite_self, lt_self_iff_false, if_false]
    exact max_le le_rfl hmax
  · have hm := hmeas heq
    have hself := propagate_max_degenerate heq hm hs1 hrates
    unfold SpData.propagate_sp_over_whammy_min
    simp only [gt_iff_lt, heq, lt_self_iff_false, if_false, hself]
    rw [max_eq_left hs0]

/-- C1 witness: the amended inequality at a concrete input (`spdataA`,
`a = (0,0)`, `b = (8,2)`, `s = 1`, max-side result `3/4 ≥ 0`). -/
theorem c1_witness :
    spdataA.propagate_sp_over_whammy_min ⟨0, 0⟩ ⟨8, 2⟩ 1 ⟨8, 2⟩ ≤
      spdataA.propagate_sp_over_whammy_max ⟨0, 0⟩ ⟨8, 2⟩ 1 :=
  c1_amended spdataA ⟨0, 0⟩ ⟨8, 2⟩ 1 (by norm_num) (by intro h; simp at h)
    (by norm_num) le_rfl (by simp [spdataA_eq])
    (by norm_num [spdataA_eq, SpData.propagate_sp_over_whammy_max,
      dropRangesBefore, spMaxLoop, MEASURES_PER_BAR])

/-! ### C2 -/

/-- C2, counterexample to the claim as stated: the public constructor
`SpBar(min, max)` stores its arguments verbatim, so the value
`SpBar(5/4, 3/2)` is reachable through the public operations yet violates
`0 ≤ min ≤ max ≤ 1` (its `max` exceeds 1). -/
theorem c2_counterexample : ¬ SpBar.inv (SpBar.mk (5/4) (3/2)) := by
  rintro ⟨h0, h1, h2⟩
  norm_num [SpBar.inv] at h2

/-- C2, amended: `add_phrase` preserves the predicate
`0 ≤ min ≤ max ≤ 1`, and construction establishes it exactly when the
arguments already satisfy it — the constructor performs no validation or
clamping of its own. -/
theorem c2_amended :
    (∀ b : SpBar, SpBar.inv b → SpBar.inv (SpBar.add_phrase b)) ∧
    (∀ m M : ℚ, SpBar.inv (SpBar.mk m M) ↔ (0 ≤ m ∧ m ≤ M ∧ M ≤ 1)) := by
  constructor
  · rintro b ⟨h0, h1, h2⟩
    refine ⟨?_, ?_, ?_⟩
    · exact le_min (by linarith) (by norm_num)
    · exact min_le_min (by linarith) le_rfl
    · exact min_le_right _ _
  · intro m M
    exact Iff.rfl

/-- C2 witness: the amended preservation statement applied to the
concrete bar `(0, 1/4)`. -/
theorem c2_witness : SpBar.inv (SpBar.add_phrase (SpBar.mk 0 (1/4))) :=
  c2_amended.1 (SpBar.mk 0 (1/4)) ⟨le_rfl, by norm_num, by norm_num⟩

/-! ### C6 -/

/-- C6: `SongHeader` construction fails (models the
`std::invalid_argument` throw) precisely when the resolution is zero or
negative, and `SyncTrack` construction never fails — it stores any
time-signature and tempo sequences verbatim, malformed
(non-monotonic-tick) ones included. -/
theorem c6_construction_fails_iff_nonpositive_resolution
    (offset resolution : ℚ) :
    ((∃ msg, SongHeader.make offset resolution = Except.error msg) ↔
      resolution ≤ 0) ∧
    ∀ (time_sigs : List TimeSignature) (bpms : List BPM),
      SyncTrack.make time_sigs bpms = ⟨time_sigs, bpms⟩ := by
  constructor
  · constructor
    · rintro ⟨msg, h⟩
      by_contra hr
      simp [SongHeader.make, hr] at h
    · intro hr
      refine ⟨"Songs with resolution < 0 are invalid", ?_⟩
      simp [SongHeader.make, hr]
  · intro ts bp
    rfl

/-! ### C7 -/

/-- C7: `form_beat_rates` emits exactly one entry per time signature, in
order, at `Beat(tick / resolution)`, with net SP gain rate
`1/30 - 1/(8 * (num * 4 / den))`. -/
theorem c7_form_beat_rates_spec (resolution : ℚ) (sync_track : SyncTrack) :
    (form_beat_rates resolution sync_track).length =
      sync_track.time_sigs.length ∧
    ∀ i : ℕ, (form_beat_rates resolution sync_track)[i]? =
      (sync_track.time_sigs[i]?).map fun ts =>
        ⟨(ts.position : ℚ) / resolution,
         1/30 - 1 / (8 * ((ts.numerator : ℚ) * 4 / (ts.denominator : ℚ)))⟩ := by
  constructor
  · simp [form_beat_rates]
  · intro i
    simp [form_beat_rates, SP_GAIN_RATE, MEASURES_PER_BAR, DEFAULT_BEAT_RATE]

/-! ### C10 -/

/-- Inside `propagate_over_whammy_range`'s loop, a negative result is
always the literal `-1.0`: the only negative-producing exit is the
early-return that replaces the genuine deficit with `-1`. -/
lemma propLoop_neg_eq_neg_one :
    ∀ (rest : List BeatRate) (p : BeatRate) (start e sp : ℚ), 0 ≤ sp →
      propLoop p rest start e sp < 0 → propLoop p rest start e sp = -1 := by
  intro rest
  induction rest with
  | nil =>
    intro p start e sp h0 hneg
    by_cases hse : start < e
    · simp only [propLoop, if_pos hse] at hneg ⊢
      by_cases h2 : sp + (e - start) * p.net_sp_gain_rate < 0
      · simp [h2]
      · rw [if_neg h2] at hneg
        rcases min_lt_iff.1 hneg with h | h
        · exact absurd h h2
        · norm_num at h
    · simp only [propLoop, if_neg hse] at hneg
      linarith
  | cons q rest ih =>
    intro p start e sp h0 hneg
    by_cases hse : start < e
    · simp only [propLoop, if_pos hse] at hneg ⊢
      by_cases h2 : sp + (Min.min e q.position - start) * p.net_sp_gain_rate < 0
      · simp [h2]
      · rw [if_neg h2] at hneg ⊢
        refine ih q (Min.min e q.position) e _ (le_min (not_lt.1 h2) one_pos.le) hneg
    · simp only [propLoop, if_neg hse] at hneg
      linarith

/-- Lifting `propLoop_neg_eq_neg_one` through the lower-bound prelude of
`propagate_over_whammy_range`. -/
lemma powr_neg_eq_neg_one {rates : List BeatRate} {start e sp : ℚ}
    (h0 : 0 ≤ sp) (hse : start ≤ e)
    (hneg : powr rates start e sp < 0) : powr rates start e sp = -1 := by
  unfold powr at hneg ⊢
  cases hb : ratesBefore start rates with
  | cons b0 bs =>
    rw [hb] at hneg
    exact propLoop_neg_eq_neg_one _ _ _ _ _ h0 hneg
  | nil =>
    rw [hb] at hneg
    cases rates with
    | nil => rfl
    | cons r0 rs =>
      have hge : start ≤ r0.position := ratesBefore_nil_head hb
      have hsub : start ≤ Min.min e r0.position := le_min hse hge
      have h1 : (0:ℚ) ≤
          Min.min (sp + (Min.min e r0.position - start) * DEFAULT_NET_SP_GAIN_RATE) 1 := by
        have : (0:ℚ) ≤ (Min.min e r0.position - start) * DEFAULT_NET_SP_GAIN_RATE := by
          have : (0:ℚ) < DEFAULT_NET_SP_GAIN_RATE := by norm_num [DEFAULT_NET_SP_GAIN_RATE]
          nlinarith
        have := le_min (by linarith : (0:ℚ) ≤ sp + (Min.min e r0.position - start) * DEFAULT_NET_SP_GAIN_RATE) one_pos.le
        exact this
      exact propLoop_neg_eq_neg_one _ _ _ _ _ h1 hneg

/-- C10: when SP dies inside a whammy range the propagator reports exactly
`-1.0` rather than the true deficit.  First conjunct: every negative result
of `propagate_over_whammy_range` is the literal `-1`.  Second conjunct: on
`spdataC` (net rate `-1/120`, whammy over beats `[0,16]`) starting with SP
`1/10`, the max propagator returns `-1` even though the linear balance at
the range's end is `1/10 + 16 * (-1/120) = -1/30 ≠ -1`.  Third conjunct:
exhaustion in a bare-drain gap (`spdataA`, no ranges) instead yields the
actual negative balance `-1/4`. -/
theorem c10_in_range_exhaustion_returns_minus_one :
    (∀ (rates : List BeatRate) (start e sp : ℚ), 0 ≤ sp → start ≤ e →
      powr rates start e sp < 0 → powr rates start e sp = -1) ∧
    (spdataC.propagate_sp_over_whammy_max ⟨0, 0⟩ ⟨16, 16/3⟩ (1/10) = -1 ∧
      spdataC.beat_rates = [⟨0, -(1/120)⟩] ∧
      (1/10 : ℚ) + 16 * (-(1/120)) = -(1/30) ∧ ((-1 : ℚ) ≠ -(1/30))) ∧
    spdataA.propagate_sp_over_whammy_max ⟨0, 0⟩ ⟨8, 2⟩ 0 = -(1/4) := by
  refine ⟨fun rates start e sp h0 hse hneg => powr_neg_eq_neg_one h0 hse hneg,
    ⟨?_, ?_, by norm_num, by norm_num⟩, ?_⟩
  · norm_num [spdataC_eq, SpData.propagate_sp_over_whammy_max, dropRangesBefore,
      spMaxLoop, powr, ratesBefore, ratesFrom, propLoop,
      MEASURES_PER_BAR, DEFAULT_NET_SP_GAIN_RATE]
  · simp [spdataC_eq]
  · norm_num [spdataA_eq, SpData.propagate_sp_over_whammy_max, dropRangesBefore,
      spMaxLoop, MEASURES_PER_BAR]

/-- C10 witness: the universal conjunct applied at the concrete exhausting
input from `spdataC`'s rate table. -/
theorem c10_witness : powr [⟨0, -(1/120)⟩] 0 16 (1/10) = -1 :=
  c10_in_range_exhaustion_returns_minus_one.1 [⟨0, -(1/120)⟩] 0 16 (1/10)
    (by norm_num) (by norm_num)
    (by norm_num [powr, ratesBefore, ratesFrom, propLoop, DEFAULT_NET_SP_GAIN_RATE])

/-! ### C9 -/

/-- A position is aligned with a beat-to-measure map `f` when its measure
is the image of its beat (all positions produced by the code are computed
through the converter in exactly this way). -/
def AlignedPos (f : ℚ → ℚ) (p : Position) : Prop :=
  f p.beat = p.measure

/-- `propLoop` clamps at 1 whenever it moves, so it never exceeds 1. -/
lemma propLoop_le_one :
    ∀ (rest : List BeatRate) (p : BeatRate) (start e sp : ℚ), sp ≤ 1 →
      propLoop p rest start e sp ≤ 1 := by
  intro rest
  induction rest with
  | nil =>
    intro p start e sp h1
    by_cases hse : start < e
    · simp only [propLoop, if_pos hse]
      by_cases h2 : sp + (e - start) * p.net_sp_gain_rate < 0
      · simp [h2]
      · rw [if_neg h2]
        exact min_le_right _ _
    · simpa [propLoop, hse] using h1
  | cons q rest ih =>
    intro p start e sp h1
    by_cases hse : start < e
    · simp only [propLoop, if_pos hse]
      by_cases h2 : sp + (Min.min e q.position - start) * p.net_sp_gain_rate < 0
      · simp [h2]
      · rw [if_neg h2]
        exact ih q _ e _ (min_le_right _ _)
    · simpa [propLoop, hse] using h1

/-- `propagate_over_whammy_range` never exceeds 1 when started at or
below 1. -/
lemma powr_le_one {rates : List BeatRate} {start e sp : ℚ} (h1 : sp ≤ 1) :
    powr rates start e sp ≤ 1 := by
  unfold powr
  cases hb : ratesBefore start rates with
  | cons b0 bs => exact propLoop_le_one _ _ _ _ _ h1
  | nil =>
    cases rates with
    | nil => norm_num
    | cons r0 rs => exact propLoop_le_one _ _ _ _ _ (min_le_right _ _)

/-- The loop of `propagate_sp_over_whammy_max` never exceeds 1, provided
every position in sight lies on a common monotone beat-to-measure map. -/
lemma spMaxLoop_le_one {rates : List BeatRate} {f : ℚ → ℚ} (hf : Monotone f) :
    ∀ (ws : List WhammyRange) (start e : Position) (sp : ℚ),
      AlignedPos f start → AlignedPos f e →
      (∀ r ∈ ws, AlignedPos f r.rstart ∧ AlignedPos f r.rend) →
      start.beat ≤ e.beat → sp ≤ 1 →
      spMaxLoop rates ws start e sp ≤ 1 := by
  intro ws
  induction ws with
  | nil =>
    intro start e sp hs he _ hsb h1
    have hm : start.measure ≤ e.measure := by
      rw [← hs, ← he]
      exact hf hsb
    simp only [spMaxLoop]
    have : (0:ℚ) ≤ (e.measure - start.measure) / MEASURES_PER_BAR := by
      apply div_nonneg (by linarith) (by norm_num [MEASURES_PER_BAR])
    linarith
  | cons r rs ih =>
    intro start e sp hs he hws hsb h1
    obtain ⟨hrs, hre⟩ := hws r (List.mem_cons_self r rs)
    have hws' := fun x hx => hws x (List.mem_cons_of_mem r hx)
    by_cases h1' : r.rstart.beat < e.beat
    · by_cases h2 : r.rstart.beat > start.beat
      · have hgap : start.measure ≤ r.rstart.measure := by
          rw [← hs, ← hrs]
          exact hf (le_of_lt h2)
        have hd : (0:ℚ) ≤ (r.rstart.measure - start.measure) / MEASURES_PER_BAR := by
          apply div_nonneg (by linarith) (by norm_num [MEASURES_PER_BAR])
        simp only [spMaxLoop, if_pos h1', gt_iff_lt, if_pos h2]
        by_cases h3 : sp - (r.rstart.measure - start.measure) / MEASURES_PER_BAR < 0
        · rw [if_pos h3]
          linarith
        · rw [if_neg h3]
          have hp1 : powr rates r.rstart.beat (Min.min e.beat r.rend.beat)
              (sp - (r.rstart.measure - start.measure) / MEASURES_PER_BAR) ≤ 1 :=
            powr_le_one (by linarith)
          by_cases h4 : powr rates r.rstart.beat (Min.min e.beat r.rend.beat)
              (sp - (r.rstart.measure - start.measure) / MEASURES_PER_BAR) < 0 ∨
              e.beat ≤ r.rend.beat
          · rw [if_pos h4]
            exact hp1
          · rw [if_neg h4]
            push_neg at h4
            exact ih r.rend e _ hre he hws' (le_of_lt h4.2) hp1
      · simp only [spMaxLoop, if_pos h1', gt_iff_lt, if_neg h2]
        have hp1 : powr rates start.beat (Min.min e.beat r.rend.beat) sp ≤ 1 :=
          powr_le_one h1
        by_cases h4 : powr rates start.beat (Min.min e.beat r.rend.beat) sp < 0 ∨
            e.beat ≤ r.rend.beat
        · rw [if_pos h4]
          exact hp1
        · rw [if_neg h4]
          push_neg at h4
          exact ih r.rend e _ hre he hws' (le_of_lt h4.2) hp1
    · have hm : start.measure ≤ e.measure := by
        rw [← hs, ← he]
        exact hf hsb
      simp only [spMaxLoop, if_neg h1']
      have : (0:ℚ) ≤ (e.measure - start.measure) / MEASURES_PER_BAR := by
        apply div_nonneg (by linarith) (by norm_num [MEASURES_PER_BAR])
      linarith

/-- C9: forward SP integration saturates at 1.0 upward but is not floored
below.  First conjunct: for any `SpData` whose positions all lie on a
common monotone beat-to-measure map (as every constructed one does, via
the converter), `propagate_sp_over_whammy_max` started at `sp ≤ 1` never
returns more than 1.  Second conjunct: with no whammy range in scope the
returned value is exactly `sp - (Δmeasure)/8`, with no clamping at zero —
a negative value is returned verbatim as the exhaustion signal. -/
theorem c9_saturates_above_not_floored_below :
    (∀ (sd : SpData) (f : ℚ → ℚ) (start e : Position) (sp : ℚ),
      Monotone f → AlignedPos f start → AlignedPos f e →
      (∀ r ∈ sd.whammy_ranges, AlignedPos f r.rstart ∧ AlignedPos f r.rend) →
      start.beat ≤ e.beat → sp ≤ 1 →
      sd.propagate_sp_over_whammy_max start e sp ≤ 1) ∧
    (∀ (sd : SpData) (start e : Position) (sp : ℚ), sd.whammy_ranges = [] →
      sd.propagate_sp_over_whammy_max start e sp =
        sp - (e.measure - start.measure) / 8) := by
  constructor
  · intro sd f start e sp hf hs he hws hsb h1
    exact spMaxLoop_le_one hf _ start e sp hs he
      (fun r hr => hws r (mem_dropRangesBefore hr)) hsb h1
  · intro sd start e sp hw
    unfold SpData.propagate_sp_over_whammy_max
    rw [hw]
    simp [dropRangesBefore, spMaxLoop, MEASURES_PER_BAR]

/-- C9 witness: the saturation bound applied to `spdataB` (whammy over
beats `[4,8]`, all positions on the map `fun b => b / 4`) from full SP. -/
theorem c9_witness :
    spdataB.propagate_sp_over_whammy_max ⟨0, 0⟩ ⟨8, 2⟩ 1 ≤ 1 :=
  c9_saturates_above_not_floored_below.1 spdataB (fun b => b / 4)
    ⟨0, 0⟩ ⟨8, 2⟩ 1
    (fun x y hxy => by dsimp only; linarith)
    (by norm_num [AlignedPos]) (by norm_num [AlignedPos])
    (by
      rw [spdataB_eq]
      intro r hr
      rcases List.mem_singleton.1 hr with rfl
      exact ⟨by norm_num [AlignedPos], by norm_num [AlignedPos]⟩)
    (by norm_num) le_rfl

/-! ### C8 -/

/-- Strict lexicographic order on the `(position, colour)` key of a note. -/
def note_keylt (a b : Note) : Prop :=
  a.position < b.position ∨ (a.position = b.position ∧ a.colour < b.colour)

/-- The deduplication loop, on a `note_le`-sorted list, yields a strictly
key-sorted list whose elements come from the input and whose key set is the
input's key set. -/
lemma dedup_notes_spec :
    ∀ (rest : List Note) (prev : Note),
      List.Pairwise note_le (prev :: rest) →
      List.Pairwise note_keylt (dedup_notes prev rest) ∧
      (∀ x ∈ dedup_notes prev rest, note_le prev x) ∧
      (∀ x ∈ dedup_notes prev rest, x ∈ prev :: rest) ∧
      (∀ y ∈ prev :: rest, ∃ x ∈ dedup_notes prev rest,
        x.position = y.position ∧ x.colour = y.colour) := by
  intro rest
  induction rest with
  | nil =>
    intro prev _
    refine ⟨?_, ?_, ?_, ?_⟩
    · simp [dedup_notes]
    · intro x hx
      rcases List.mem_singleton.1 hx with rfl
      exact Or.inr ⟨rfl, le_rfl⟩
    · intro x hx
      simpa [dedup_notes] using hx
    · intro y hy
      rcases List.mem_singleton.1 hy with rfl
      exact ⟨y, List.mem_singleton.2 rfl, rfl, rfl⟩
  | cons p rest ih =>
    intro prev hp
    obtain ⟨hprev, hrest⟩ := List.pairwise_cons.1 hp
    obtain ⟨ih1, ih2, ih3, ih4⟩ := ih p hrest
    have hpp : note_le prev p := hprev p (List.mem_cons_self p rest)
    by_cases hc : p.position = prev.position ∧ p.colour = prev.colour
    · simp only [dedup_notes, if_pos hc]
      refine ⟨ih1, ?_, ?_, ?_⟩
      · intro x hx
        exact IsTrans.trans _ _ _ hpp (ih2 x hx)
      · intro x hx
        exact List.mem_cons_of_mem prev (ih3 x hx)
      · intro y hy
        rcases List.mem_cons.1 hy with rfl | hy
        · obtain ⟨x, hx, h1, h2⟩ := ih4 p (List.mem_cons_self p rest)
          exact ⟨x, hx, h1.trans hc.1, h2.trans hc.2⟩
        · exact ih4 y hy
    · simp only [dedup_notes, if_neg hc]
      refine ⟨?_, ?_, ?_, ?_⟩
      · rw [List.pairwise_cons]
        refine ⟨?_, ih1⟩
        intro x hx
        have hx2 := ih2 x hx
        unfold note_le note_keylt at *
        omega
      · intro x hx
        rcases List.mem_cons.1 hx with rfl | hx
        · exact Or.inr ⟨rfl, le_rfl⟩
        · exact IsTrans.trans _ _ _ hpp (ih2 x hx)
      · intro x hx
        rcases List.mem_cons.1 hx with rfl | hx
        · exact List.mem_cons_self _ _
        · exact List.mem_cons_of_mem prev (ih3 x hx)
      · intro y hy
        rcases List.mem_cons.1 hy with rfl | hy
        · exact ⟨y, List.mem_cons_self _ _, rfl, rfl⟩
        · obtain ⟨x, hx, h1, h2⟩ := ih4 y hy
          exact ⟨x, List.mem_cons_of_mem prev hx, h1, h2⟩

/-- C8: the notes stored by a constructed `NoteTrack` are strictly sorted
by `(position, colour)` (so each key appears at most once), and the keys
present are exactly the keys present in the input — duplicates sharing
`(position, colour)` are collapsed to a single note. -/
theorem c8_notes_sorted_and_deduplicated (notes : List Note)
    (sp_phrases : List StarPower) (events : List ChartEvent) :
    List.Pairwise note_keylt (NoteTrack.make notes sp_phrases events).notes ∧
    ∀ pc : ℕ × ℕ,
      (∃ n ∈ (NoteTrack.make notes sp_phrases events).notes,
        (n.position, n.colour) = pc) ↔
      (∃ n ∈ notes, (n.position, n.colour) = pc) := by
  have hperm := List.perm_insertionSort note_le notes
  unfold NoteTrack.make
  cases hs : notes.insertionSort note_le with
  | nil =>
    rw [hs] at hperm
    have : notes = [] := hperm.symm.eq_nil
    subst this
    simp
  | cons n rest =>
    rw [hs] at hperm
    have hsort : List.Pairwise note_le (n :: rest) := by
      have := List.sorted_insertionSort note_le notes
      rw [hs] at this
      exact this
    obtain ⟨h1, _h2, h3, h4⟩ := dedup_notes_spec rest n hsort
    constructor
    · exact h1
    · intro pc
      constructor
      · rintro ⟨x, hx, rfl⟩
        exact ⟨x, hperm.subset (h3 x hx), rfl⟩
      · rintro ⟨y, hy, rfl⟩
        obtain ⟨x, hx, hp1, hp2⟩ := h4 y (hperm.mem_iff.2 hy)
        exact ⟨x, hx, by rw [hp1, hp2]⟩

/-! ### C4 -/

/-- Every raw whammy-range candidate is nonempty: the constructor drops
empty ranges before sorting. -/
lemma raw_whammy_ranges_lt {resolution : ℚ} {adjust : ℚ → ℚ}
    {note_spans : List (ℤ × ℤ)} {phrases : List StarPower} :
    ∀ pr ∈ raw_whammy_ranges resolution adjust note_spans phrases,
      pr.1 < pr.2 := by
  intro pr hpr
  obtain ⟨span, _, heq⟩ := List.mem_filterMap.1 hpr
  by_cases h3 : adjust ((span.1 : ℚ) / resolution) <
      ((span.1 + span.2 : ℤ) : ℚ) / resolution
  · simp only [h3, if_true] at heq
    split_ifs at heq with h1 h2
    all_goals cases heq
    simpa using h3
  · simp only [h3, if_false] at heq
    split_ifs at heq

/-- The merge loop of the constructor: starting from a nonempty
accumulator pair and a start-sorted list of nonempty ranges, it emits
nonempty ranges separated by strict gaps. -/
lemma merge_ranges_loop_spec :
    ∀ (rest : List (ℚ × ℚ)) (pair : ℚ × ℚ), pair.1 < pair.2 →
      (∀ q ∈ rest, pair.1 ≤ q.1 ∧ q.1 < q.2) →
      List.Pairwise (fun a b : ℚ × ℚ => a.1 ≤ b.1) rest →
      (∀ o ∈ merge_ranges_loop pair rest, pair.1 ≤ o.1 ∧ o.1 < o.2) ∧
      List.Pairwise (fun a b : ℚ × ℚ => a.2 < b.1) (merge_ranges_loop pair rest) := by
  intro rest
  induction rest with
  | nil =>
    intro pair hpair _ _
    refine ⟨?_, by simp [merge_ranges_loop]⟩
    intro o ho
    rcases List.mem_singleton.1 ho with rfl
    exact ⟨le_rfl, hpair⟩
  | cons p rest ih =>
    intro pair hpair hq hsorted
    obtain ⟨hfst, hrest⟩ := List.pairwise_cons.1 hsorted
    obtain ⟨hp1, hp2⟩ := hq p (List.mem_cons_self p rest)
    by_cases hm : p.1 ≤ pair.2
    · simp only [merge_ranges_loop, if_pos hm]
      exact ih (pair.1, Max.max pair.2 p.2)
        (lt_of_lt_of_le hpair (le_max_left _ _))
        (fun q hqr => ⟨(hq q (List.mem_cons_of_mem p hqr)).1,
          (hq q (List.mem_cons_of_mem p hqr)).2⟩)
        hrest
    · simp only [merge_ranges_loop, if_neg hm]
      obtain ⟨ihA, ihB⟩ := ih p hp2
        (fun q hqr => ⟨hfst q hqr, (hq q (List.mem_cons_of_mem p hqr)).2⟩)
        hrest
      refine ⟨?_, ?_⟩
      · intro o ho
        rcases List.mem_cons.1 ho with rfl | ho
        · exact ⟨le_rfl, hpair⟩
        · exact ⟨hp1.trans (ihA o ho).1, (ihA o ho).2⟩
      · rw [List.pairwise_cons]
        refine ⟨?_, ihB⟩
        intro o ho
        exact lt_of_lt_of_le (lt_of_not_le hm) (ihA o ho).1

/-- C4: the whammy ranges of any constructed `SpData` are nonempty,
sorted by start and pairwise disjoint with strict gaps between
consecutive ranges (overlapping and adjacent candidates are merged). -/
theorem c4_whammy_ranges_sorted_disjoint (note_spans : List (ℤ × ℤ))
    (phrases : List StarPower) (resolution : ℚ) (sync_track : SyncTrack)
    (adjust : ℚ → ℚ) :
    (∀ r ∈ (SpData.make note_spans phrases resolution sync_track
        adjust).whammy_ranges, r.rstart.beat < r.rend.beat) ∧
    List.Pairwise (fun r1 r2 : WhammyRange => r1.rend.beat < r2.rstart.beat)
      (SpData.make note_spans phrases resolution sync_track
        adjust).whammy_ranges := by
  have hperm := List.perm_insertionSort pair_le
    (raw_whammy_ranges resolution adjust note_spans phrases)
  have hlt : ∀ q ∈ (raw_whammy_ranges resolution adjust note_spans
      phrases).insertionSort pair_le, q.1 < q.2 :=
    fun q hq => raw_whammy_ranges_lt q (hperm.subset hq)
  have hsorted : List.Pairwise (fun a b : ℚ × ℚ => a.1 ≤ b.1)
      ((raw_whammy_ranges resolution adjust note_spans
        phrases).insertionSort pair_le) := by
    refine (List.sorted_insertionSort pair_le _).imp ?_
    intro a b hab
    rcases hab with h | ⟨h, _⟩
    · exact le_of_lt h
    · exact le_of_eq h
  have hmerge :
      (∀ o ∈ merge_ranges ((raw_whammy_ranges resolution adjust note_spans
        phrases).insertionSort pair_le), o.1 < o.2) ∧
      List.Pairwise (fun a b : ℚ × ℚ => a.2 < b.1)
        (merge_ranges ((raw_whammy_ranges resolution adjust note_spans
          phrases).insertionSort pair_le)) := by
    cases hs : (raw_whammy_ranges resolution adjust note_spans
        phrases).insertionSort pair_le with
    | nil => simp [merge_ranges]
    | cons p rest =>
      rw [hs] at hlt hsorted
      obtain ⟨hfst, hrest⟩ := List.pairwise_cons.1 hsorted
      obtain ⟨hA, hB⟩ := merge_ranges_loop_spec rest p
        (hlt p (List.mem_cons_self p rest))
        (fun q hq => ⟨hfst q hq, hlt q (List.mem_cons_of_mem p hq)⟩)
        hrest
      exact ⟨fun o ho => (hA o ho).2, hB⟩
  constructor
  · intro r hr
    simp only [SpData.make, List.mem_map] at hr
    obtain ⟨pr, hpr, rfl⟩ := hr
    exact hmerge.1 pr hpr
  · simp only [SpData.make, List.pairwise_map]
    exact hmerge.2

/-! ### C5 -/

lemma getLastD_mem_cons {α : Type} :
    ∀ (l : List α) (x d : α), (x :: l).getLastD d ∈ x :: l := by
  intro l
  induction l with
  | nil => intro x d; simp
  | cons y ys ih =>
    intro x d
    rw [List.getLastD_cons]
    exact List.mem_cons_of_mem x (ih y x)

/-- On a beat-sorted anchor table, the lower-bound split at a member
anchor's beat cuts exactly at that anchor. -/
lemma anchors_split_beat :
    ∀ (L : List MeasureTimestamp) (a : MeasureTimestamp), a ∈ L →
      List.Pairwise (fun x y : MeasureTimestamp => x.beat < y.beat) L →
      ∃ pre suf, L = pre ++ a :: suf ∧
        anchorsBeforeBeat a.beat L = pre ∧ anchorsFromBeat a.beat L = a :: suf := by
  intro L
  induction L with
  | nil => intro a ha; exact absurd ha (List.not_mem_nil a)
  | cons x rest ih =>
    intro a ha hp
    obtain ⟨hx, hrest⟩ := List.pairwise_cons.1 hp
    rcases List.mem_cons.1 ha with rfl | ha
    · refine ⟨[], rest, rfl, ?_, ?_⟩
      · simp [anchorsBeforeBeat]
      · simp [anchorsFromBeat]
    · have hlt : x.beat < a.beat := hx a ha
      obtain ⟨pre, suf, heqL, hbef, hfrom⟩ := ih a ha hrest
      refine ⟨x :: pre, suf, by rw [List.cons_append, heqL], ?_, ?_⟩
      · simp [anchorsBeforeBeat, hlt, hbef]
      · simp [anchorsFromBeat, hlt, hfrom]

/-- On a measure-sorted anchor table, the lower-bound split at a member
anchor's measure cuts exactly at that anchor. -/
lemma anchors_split_measure :
    ∀ (L : List MeasureTimestamp) (a : MeasureTimestamp), a ∈ L →
      List.Pairwise (fun x y : MeasureTimestamp => x.measure < y.measure) L →
      ∃ pre suf, L = pre ++ a :: suf ∧
        anchorsBeforeMeasure a.measure L = pre ∧
        anchorsFromMeasure a.measure L = a :: suf := by
  intro L
  induction L with
  | nil => intro a ha; exact absurd ha (List.not_mem_nil a)
  | cons x rest ih =>
    intro a ha hp
    obtain ⟨hx, hrest⟩ := List.pairwise_cons.1 hp
    rcases List.mem_cons.1 ha with rfl | ha
    · refine ⟨[], rest, rfl, ?_, ?_⟩
      · simp [anchorsBeforeMeasure]
      · simp [anchorsFromMeasure]
    · have hlt : x.measure < a.measure := hx a ha
      obtain ⟨pre, suf, heqL, hbef, hfrom⟩ := ih a ha hrest
      refine ⟨x :: pre, suf, by rw [List.cons_append, heqL], ?_, ?_⟩
      · simp [anchorsBeforeMeasure, hlt, hbef]
      · simp [anchorsFromMeasure, hlt, hfrom]

/-- `beats_to_measures` is exact at every anchor of a beat-sorted table. -/
lemma beats_to_measures_anchor (conv : TimeConverter)
    (hs : List.Pairwise (fun x y : MeasureTimestamp => x.beat < y.beat)
      conv.measure_timestamps)
    (a : MeasureTimestamp) (ha : a ∈ conv.measure_timestamps) :
    conv.beats_to_measures a.beat = a.measure := by
  obtain ⟨pre, suf, heqL, hbef, hfrom⟩ :=
    anchors_split_beat conv.measure_timestamps a ha hs
  unfold TimeConverter.beats_to_measures
  rw [hfrom, hbef]
  dsimp only
  cases pre with
  | nil => simp
  | cons b0 brest =>
    have hprev : (b0 :: brest).getLastD ⟨0, 0⟩ ∈ b0 :: brest :=
      getLastD_mem_cons brest b0 ⟨0, 0⟩
    have hcross := (List.pairwise_append.1 (heqL ▸ hs)).2.2
    have hlt : ((b0 :: brest).getLastD ⟨0, 0⟩).beat < a.beat :=
      hcross _ hprev a (List.mem_cons_self a suf)
    have hne : a.beat - ((b0 :: brest).getLastD ⟨0, 0⟩).beat ≠ 0 :=
      sub_ne_zero.2 (ne_of_gt hlt)
    dsimp only
    rw [div_self hne, mul_one]
    ring

/-- `measures_to_beats` is exact at every anchor of a measure-sorted
table. -/
lemma measures_to_beats_anchor (conv : TimeConverter)
    (hs : List.Pairwise (fun x y : MeasureTimestamp => x.measure < y.measure)
      conv.measure_timestamps)
    (a : MeasureTimestamp) (ha : a ∈ conv.measure_timestamps) :
    conv.measures_to_beats a.measure = a.beat := by
  obtain ⟨pre, suf, heqL, hbef, hfrom⟩ :=
    anchors_split_measure conv.measure_timestamps a ha hs
  unfold TimeConverter.measures_to_beats
  rw [hfrom, hbef]
  dsimp only
  cases pre with
  | nil => simp
  | cons b0 brest =>
    have hprev : (b0 :: brest).getLastD ⟨0, 0⟩ ∈ b0 :: brest :=
      getLastD_mem_cons brest b0 ⟨0, 0⟩
    have hcross := (List.pairwise_append.1 (heqL ▸ hs)).2.2
    have hlt : ((b0 :: brest).getLastD ⟨0, 0⟩).measure < a.measure :=
      hcross _ hprev a (List.mem_cons_self a suf)
    have hne : a.measure - ((b0 :: brest).getLastD ⟨0, 0⟩).measure ≠ 0 :=
      sub_ne_zero.2 (ne_of_gt hlt)
    dsimp only
    rw [div_self hne, mul_one]
    ring

/-- One unfolding step of the anchor construction. -/
lemma make_timestamps_cons (resolution : ℚ) (last_tick : ℕ)
    (last_beat_rate last_measure : ℚ) (ts : TimeSignature)
    (rest : List TimeSignature) :
    (make_timestamps resolution last_tick last_beat_rate last_measure
      (ts :: rest)).1 =
    ⟨last_measure + ((ts.position : ℚ) - (last_tick : ℚ)) /
        (resolution * last_beat_rate), (ts.position : ℚ) / resolution⟩ ::
      (make_timestamps resolution ts.position
        ((ts.numerator : ℚ) * DEFAULT_BEAT_RATE / (ts.denominator : ℚ))
        (last_measure + ((ts.position : ℚ) - (last_tick : ℚ)) /
          (resolution * last_beat_rate)) rest).1 :=
  rfl

/-- With a positive resolution, strictly increasing time-signature ticks
and positive numerators/denominators, consecutive anchors strictly
increase in both beat and measure. -/
lemma make_timestamps_chain (resolution : ℚ) (hres : 0 < resolution) :
    ∀ (tss : List TimeSignature) (last_tick : ℕ)
      (last_beat_rate last_measure : ℚ), 0 < last_beat_rate →
      (∀ ts ∈ tss, 0 < ts.numerator ∧ 0 < ts.denominator) →
      List.Pairwise (fun a b : TimeSignature => a.position < b.position) tss →
      List.Chain' (fun a b : MeasureTimestamp =>
        a.beat < b.beat ∧ a.measure < b.measure)
        (make_timestamps resolution last_tick last_beat_rate last_measure
          tss).1 := by
  intro tss
  induction tss with
  | nil =>
    intro last_tick last_beat_rate last_measure _ _ _
    simp [make_timestamps]
  | cons ts rest ih =>
    intro last_tick last_beat_rate last_measure hlr hnd hp
    obtain ⟨hts, hrest⟩ := List.pairwise_cons.1 hp
    obtain ⟨hnum, hden⟩ := hnd ts (List.mem_cons_self ts rest)
    have hnd' := fun x hx => hnd x (List.mem_cons_of_mem ts hx)
    have hrate' : 0 < (ts.numerator : ℚ) * DEFAULT_BEAT_RATE / (ts.denominator : ℚ) := by
      apply div_pos
      · apply mul_pos
        · exact_mod_cast hnum
        · norm_num [DEFAULT_BEAT_RATE]
      · exact_mod_cast hden
    have ihr := ih ts.position
      ((ts.numerator : ℚ) * DEFAULT_BEAT_RATE / (ts.denominator : ℚ))
      (last_measure + ((ts.position : ℚ) - (last_tick : ℚ)) /
        (resolution * last_beat_rate)) hrate' hnd' hrest
    rw [make_timestamps_cons]
    cases rest with
    | nil => simp [make_timestamps]
    | cons ts1 rest' =>
      rw [make_timestamps_cons] at ihr ⊢
      rw [List.chain'_cons]
      refine ⟨⟨?_, ?_⟩, ihr⟩
      · have h01 : (ts.position : ℚ) < (ts1.position : ℚ) := by
          exact_mod_cast hts ts1 (List.mem_cons_self ts1 rest')
        exact (div_lt_div_iff_of_pos_right hres).2 h01
      · have h01 : (0 : ℚ) < (ts1.position : ℚ) - (ts.position : ℚ) := by
          have : (ts.position : ℚ) < (ts1.position : ℚ) := by
            exact_mod_cast hts ts1 (List.mem_cons_self ts1 rest')
          linarith
        have hpos : (0 : ℚ) < ((ts1.position : ℚ) - (ts.position : ℚ)) /
            (resolution * ((ts.numerator : ℚ) * DEFAULT_BEAT_RATE /
              (ts.denominator : ℚ))) :=
          div_pos h01 (mul_pos hres hrate')
        linarith

/-- C5: on any sync track with strictly increasing time-signature ticks,
positive numerators and denominators, and a positive resolution, the two
conversions of the constructed `TimeConverter` are mutual inverses on
every anchor of its precomputed table — exactly, since the model works
over rationals. -/
theorem c5_anchor_roundtrip (sync_track : SyncTrack) (resolution : ℚ)
    (hres : 0 < resolution)
    (hsorted : List.Pairwise (fun a b : TimeSignature =>
      a.position < b.position) sync_track.time_sigs)
    (hnumden : ∀ ts ∈ sync_track.time_sigs,
      0 < ts.numerator ∧ 0 < ts.denominator) :
    ∀ a ∈ (TimeConverter.make sync_track resolution).measure_timestamps,
      (TimeConverter.make sync_track resolution).beats_to_measures a.beat =
        a.measure ∧
      (TimeConverter.make sync_track resolution).measures_to_beats a.measure =
        a.beat := by
  have hchain := make_timestamps_chain resolution hres sync_track.time_sigs 0
    DEFAULT_BEAT_RATE 0 (by norm_num [DEFAULT_BEAT_RATE]) hnumden hsorted
  haveI : IsTrans MeasureTimestamp (fun a b : MeasureTimestamp =>
      a.beat < b.beat ∧ a.measure < b.measure) :=
    ⟨fun _ _ _ h1 h2 => ⟨h1.1.trans h2.1, h1.2.trans h2.2⟩⟩
  have hpair := List.chain'_iff_pairwise.1 hchain
  have hbeat : List.Pairwise (fun x y : MeasureTimestamp => x.beat < y.beat)
      (TimeConverter.make sync_track resolution).measure_timestamps :=
    hpair.imp fun h => h.1
  have hmeas : List.Pairwise
      (fun x y : MeasureTimestamp => x.measure < y.measure)
      (TimeConverter.make sync_track resolution).measure_timestamps :=
    hpair.imp fun h => h.2
  intro a ha
  exact ⟨beats_to_measures_anchor _ hbeat a ha,
    measures_to_beats_anchor _ hmeas a ha⟩

/-- C5 witness: the round trip at the second anchor `(measure 1/2, beat 2)`
of the converter built from time signatures 4/4 at tick 0 and 3/4 at tick
384, resolution 192. -/
theorem c5_witness :
    (TimeConverter.make (SyncTrack.make [⟨0, 4, 4⟩, ⟨384, 3, 4⟩] [])
      192).beats_to_measures 2 = 1/2 ∧
    (TimeConverter.make (SyncTrack.make [⟨0, 4, 4⟩, ⟨384, 3, 4⟩] [])
      192).measures_to_beats (1/2) = 2 := by
  have h := c5_anchor_roundtrip (SyncTrack.make [⟨0, 4, 4⟩, ⟨384, 3, 4⟩] [])
    192 (by norm_num)
    (by
      simp only [SyncTrack.make, List.pairwise_cons, List.mem_singleton]
      refine ⟨?_, ?_, ?_⟩ <;> simp_all)
    (by
      intro ts hts
      simp only [SyncTrack.make] at hts
      rcases List.mem_cons.1 hts with rfl | hts
      · exact ⟨by norm_num, by norm_num⟩
      · rcases List.mem_singleton.1 hts with rfl
        exact ⟨by norm_num, by norm_num⟩)
    ⟨1/2, 2⟩
    (by
      norm_num [TimeConverter.make, make_timestamps, SyncTrack.make,
        DEFAULT_BEAT_RATE])
  exact h

/-! ### C3 -/

lemma propLoop_not_lt {p : BeatRate} {rest : List BeatRate}
    {start e sp : ℚ} (h : ¬ start < e) :
    propLoop p rest start e sp = sp := by
  cases rest <;> simp [propLoop, h]

/-- When the range propagator dies on `[start, rend]`, the endpoint solver
run over the enclosing `[start, e)` stops strictly before `rend`: the
linear zero crossing lies inside the segment that went negative. -/
lemma wpeLoop_lt :
    ∀ (rest : List BeatRate) (p : BeatRate) (start sp rend e : ℚ),
      0 ≤ sp → start ≤ rend → rend ≤ e →
      (∀ q ∈ rest, start ≤ q.position) →
      List.Pairwise (fun a b : BeatRate => a.position ≤ b.position) rest →
      propLoop p rest start rend sp < 0 →
      wpeLoop p rest start e sp < rend := by
  intro rest
  induction rest with
  | nil =>
    intro p start sp rend e h0 h1 h2 _ _ hneg
    by_cases hse : start < rend
    · simp only [propLoop, if_pos hse] at hneg
      by_cases htrig : sp + (rend - start) * p.net_sp_gain_rate < 0
      · have hrate : p.net_sp_gain_rate < 0 := by nlinarith [sub_pos.2 hse]
        have hstartE : start < e := lt_of_lt_of_le hse h2
        have htrigE : sp + (e - start) * p.net_sp_gain_rate < 0 := by nlinarith
        simp only [wpeLoop, if_pos hstartE, if_pos htrigE]
        have hdiv : -sp / p.net_sp_gain_rate < rend - start := by
          rw [div_lt_iff_of_neg hrate]
          linarith
        linarith
      · rw [if_neg htrig] at hneg
        have := le_min (not_lt.1 htrig) (zero_le_one (α := ℚ))
        linarith
    · rw [propLoop_not_lt hse] at hneg
      linarith
  | cons q rest ih =>
    intro p start sp rend e h0 h1 h2 hq hchain hneg
    obtain ⟨hq1, hchain'⟩ := List.pairwise_cons.1 hchain
    have hqpos : start ≤ q.position := hq q (List.mem_cons_self q rest)
    by_cases hse : start < rend
    · simp only [propLoop, if_pos hse] at hneg
      have hstartE : start < e := lt_of_lt_of_le hse h2
      by_cases htrig :
          sp + (Min.min rend q.position - start) * p.net_sp_gain_rate < 0
      · have hsubge : start ≤ Min.min rend q.position :=
          le_min (le_of_lt hse) hqpos
        have hsubgt : start < Min.min rend q.position := by
          rcases eq_or_lt_of_le hsubge with heq | h
          · rw [← heq, sub_self, zero_mul, add_zero] at htrig
            linarith
          · exact h
        have hrate : p.net_sp_gain_rate < 0 := by nlinarith
        have hsubE : Min.min rend q.position ≤ Min.min e q.position :=
          min_le_min h2 le_rfl
        have htrigE :
            sp + (Min.min e q.position - start) * p.net_sp_gain_rate < 0 := by
          nlinarith
        simp only [wpeLoop, if_pos hstartE, if_pos htrigE]
        have hdiv : -sp / p.net_sp_gain_rate < Min.min rend q.position - start := by
          rw [div_lt_iff_of_neg hrate]
          linarith
        have := min_le_left rend q.position
        linarith
      · rw [if_neg htrig] at hneg
        by_cases hqr : rend < q.position
        · have hmin : Min.min rend q.position = rend := min_eq_left (le_of_lt hqr)
          rw [hmin] at hneg htrig
          rw [propLoop_not_lt (lt_irrefl rend)] at hneg
          have := le_min (not_lt.1 htrig) (zero_le_one (α := ℚ))
          linarith
        · push_neg at hqr
          have hminR : Min.min rend q.position = q.position := min_eq_right hqr
          have hminE : Min.min e q.position = q.position :=
            min_eq_right (hqr.trans h2)
          rw [hminR] at hneg htrig
          simp only [wpeLoop, if_pos hstartE, hminE, if_neg htrig]
          exact ih q q.position _ rend e
            (le_min (not_lt.1 htrig) (zero_le_one (α := ℚ))) hqr h2 hq1
            hchain' hneg
    · rw [propLoop_not_lt hse] at hneg
      linarith

/-- Top-level version of `wpeLoop_lt`, through the lower-bound prelude. -/
lemma wpe_lt {rates : List BeatRate} {start rend e sp : ℚ}
    (hne : rates ≠ [])
    (hchain : List.Pairwise (fun a b : BeatRate => a.position ≤ b.position) rates)
    (h0 : 0 ≤ sp) (h1 : start ≤ rend) (h2 : rend ≤ e)
    (hneg : powr rates start rend sp < 0) :
    wpe rates start e sp < rend := by
  unfold powr at hneg
  unfold wpe
  cases hb : ratesBefore start rates with
  | cons b0 bs =>
    rw [hb] at hneg
    exact wpeLoop_lt (ratesFrom start rates) _ start sp rend e h0 h1 h2
      (ratesFrom_ge hchain) (List.Pairwise.sublist (ratesFrom_sublist start rates) hchain)
      hneg
  | nil =>
    rw [hb] at hneg
    cases rates with
    | nil => exact absurd rfl hne
    | cons r0 rs =>
      dsimp only at hneg ⊢
      obtain ⟨hr0, hrs⟩ := List.pairwise_cons.1 hchain
      have hge : start ≤ r0.position := ratesBefore_nil_head hb
      have hDpos : (0:ℚ) < DEFAULT_NET_SP_GAIN_RATE := by
        norm_num [DEFAULT_NET_SP_GAIN_RATE]
      by_cases hqr : rend ≤ r0.position
      · have hminR : Min.min rend r0.position = rend := min_eq_left hqr
        rw [hminR, propLoop_not_lt (lt_irrefl rend)] at hneg
        have hgain : (0:ℚ) ≤ (rend - start) * DEFAULT_NET_SP_GAIN_RATE :=
          mul_nonneg (by linarith) (le_of_lt hDpos)
        have := le_min (by linarith :
          (0:ℚ) ≤ sp + (rend - start) * DEFAULT_NET_SP_GAIN_RATE)
          (zero_le_one (α := ℚ))
        linarith
      · push_neg at hqr
        have hminR : Min.min rend r0.position = r0.position :=
          min_eq_right (le_of_lt hqr)
        have hminE : Min.min e r0.position = r0.position :=
          min_eq_right (le_of_lt (lt_of_lt_of_le hqr h2))
        rw [hminR] at hneg
        rw [hminE]
        have hgain : (0:ℚ) ≤ (r0.position - start) * DEFAULT_NET_SP_GAIN_RATE :=
          mul_nonneg (by linarith) (le_of_lt hDpos)
        exact wpeLoop_lt rs r0 r0.position _ rend e
          (le_min (by linarith) (zero_le_one (α := ℚ))) (le_of_lt hqr) h2 hr0
          hrs hneg

/-- Specification of the bare-drain return common to `actLoop`'s empty and
no-more-ranges cases: the result is at most `e` in both coordinates, equals
`e` exactly when the drained balance stays nonnegative and differs from `e`
(strictly smaller measure) otherwise. -/
lemma drain_case_spec {conv : TimeConverter} {e : Position}
    (hMmono : Monotone conv.measures_to_beats)
    (hMe : conv.measures_to_beats e.measure = e.beat)
    (start : Position) (sp : ℚ) :
    ((if sp < (e.measure - start.measure) / MEASURES_PER_BAR then
        (⟨conv.measures_to_beats (start.measure + sp * MEASURES_PER_BAR),
          start.measure + sp * MEASURES_PER_BAR⟩ : Position)
      else e).beat ≤ e.beat ∧
     (if sp < (e.measure - start.measure) / MEASURES_PER_BAR then
        (⟨conv.measures_to_beats (start.measure + sp * MEASURES_PER_BAR),
          start.measure + sp * MEASURES_PER_BAR⟩ : Position)
      else e).measure ≤ e.measure) ∧
    (0 ≤ sp - (e.measure - start.measure) / MEASURES_PER_BAR →
      (if sp < (e.measure - start.measure) / MEASURES_PER_BAR then
        (⟨conv.measures_to_beats (start.measure + sp * MEASURES_PER_BAR),
          start.measure + sp * MEASURES_PER_BAR⟩ : Position)
      else e) = e) ∧
    (sp - (e.measure - start.measure) / MEASURES_PER_BAR < 0 →
      (if sp < (e.measure - start.measure) / MEASURES_PER_BAR then
        (⟨conv.measures_to_beats (start.measure + sp * MEASURES_PER_BAR),
          start.measure + sp * MEASURES_PER_BAR⟩ : Position)
      else e) ≠ e) := by
  have h8 : (0:ℚ) < MEASURES_PER_BAR := by norm_num [MEASURES_PER_BAR]
  by_cases h : sp < (e.measure - start.measure) / MEASURES_PER_BAR
  · have hem : start.measure + sp * MEASURES_PER_BAR < e.measure := by
      have := (lt_div_iff₀ h8).1 h
      linarith
    rw [if_pos h]
    refine ⟨⟨?_, le_of_lt hem⟩, ?_, ?_⟩
    · calc conv.measures_to_beats (start.measure + sp * MEASURES_PER_BAR)
          ≤ conv.measures_to_beats e.measure := hMmono (le_of_lt hem)
        _ = e.beat := hMe
    · intro h0
      exfalso
      linarith
    · intro _ hEq
      have := congrArg Position.measure hEq
      dsimp at this
      linarith
  · rw [if_neg h]
    refine ⟨⟨le_rfl, le_rfl⟩, fun _ => rfl, ?_⟩
    intro hneg
    exfalso
    push_neg at h
    linarith

/-- The joint specification of `actLoop` against `spMaxLoop`: the returned
position never exceeds `e`, equals `e` exactly when the integrated maximum
SP balance at `e` is nonnegative, and differs from `e` when the balance
goes negative. -/
lemma actLoop_spec {conv : TimeConverter} {rates : List BeatRate} {e : Position}
    (hne : rates ≠ [])
    (hrchain : List.Pairwise (fun a b : BeatRate => a.position ≤ b.position) rates)
    (hBmono : Monotone conv.beats_to_measures)
    (hMmono : Monotone conv.measures_to_beats)
    (hBe : conv.beats_to_measures e.beat = e.measure)
    (hMe : conv.measures_to_beats e.measure = e.beat) :
    ∀ (ws : List WhammyRange) (start : Position) (sp : ℚ),
      (∀ r ∈ ws, conv.beats_to_measures r.rstart.beat = r.rstart.measure ∧
        conv.beats_to_measures r.rend.beat = r.rend.measure ∧
        r.rstart.beat ≤ r.rend.beat) →
      (∀ r ∈ ws, start.beat ≤ r.rend.beat) →
      List.Pairwise (fun a b : WhammyRange => a.rend.beat ≤ b.rend.beat) ws →
      conv.beats_to_measures start.beat = start.measure →
      start.beat ≤ e.beat → 0 ≤ sp →
      ((actLoop conv rates ws start e sp).beat ≤ e.beat ∧
        (actLoop conv rates ws start e sp).measure ≤ e.measure) ∧
      (0 ≤ spMaxLoop rates ws start e sp →
        actLoop conv rates ws start e sp = e) ∧
      (spMaxLoop rates ws start e sp < 0 →
        actLoop conv rates ws start e sp ≠ e) := by
  intro ws
  induction ws with
  | nil =>
    intro start sp _ _ _ _ _ _
    simp only [actLoop, spMaxLoop]
    exact drain_case_spec hMmono hMe start sp
  | cons r rs ih =>
    intro start sp hws hlow hrends hBs hsb hsp
    obtain ⟨hrS, hrE, hsr⟩ := hws r (List.mem_cons_self r rs)
    have hws' := fun x hx => hws x (List.mem_cons_of_mem r hx)
    obtain ⟨hrendshead, hrends'⟩ := List.pairwise_cons.1 hrends
    have hrlow : start.beat ≤ r.rend.beat := hlow r (List.mem_cons_self r rs)
    have h8 : (0:ℚ) < MEASURES_PER_BAR := by norm_num [MEASURES_PER_BAR]
    by_cases h1 : r.rstart.beat < e.beat
    · by_cases h2 : start.beat < r.rstart.beat
      · -- gap before the range: bare drain to its start first
        have hdm : start.measure ≤ r.rstart.measure := by
          rw [← hBs, ← hrS]
          exact hBmono (le_of_lt h2)
        simp only [actLoop, spMaxLoop, if_pos h1, gt_iff_lt, if_pos h2]
        by_cases h3 : sp < (r.rstart.measure - start.measure) / MEASURES_PER_BAR
        · have hneg2 :
              sp - (r.rstart.measure - start.measure) / MEASURES_PER_BAR < 0 := by
            linarith
          rw [if_pos h3, if_pos hneg2]
          have hem : start.measure + sp * MEASURES_PER_BAR < r.rstart.measure := by
            have := (lt_div_iff₀ h8).1 h3
            linarith
          have hrm_le : r.rstart.measure ≤ e.measure := by
            rw [← hrS, ← hBe]
            exact hBmono (le_of_lt h1)
          have hemE : start.measure + sp * MEASURES_PER_BAR < e.measure :=
            lt_of_lt_of_le hem hrm_le
          refine ⟨⟨?_, le_of_lt hemE⟩, ?_, ?_⟩
          · calc conv.measures_to_beats (start.measure + sp * MEASURES_PER_BAR)
                ≤ conv.measures_to_beats e.measure := hMmono (le_of_lt hemE)
              _ = e.beat := hMe
          · intro h0
            exfalso
            linarith
          · intro _ hEq
            have := congrArg Position.measure hEq
            dsimp at this
            linarith
        · push_neg at h3
          have h3' : (0:ℚ) ≤
              sp - (r.rstart.measure - start.measure) / MEASURES_PER_BAR := by
            linarith
          rw [if_neg (not_lt.2 h3), if_neg (not_lt.2 h3')]
          by_cases h4 : powr rates r.rstart.beat (Min.min e.beat r.rend.beat)
              (sp - (r.rstart.measure - start.measure) / MEASURES_PER_BAR) < 0
          · rw [if_pos h4, if_pos (Or.inl h4)]
            have hminle : r.rstart.beat ≤ Min.min e.beat r.rend.beat :=
              le_min (le_of_lt h1) hsr
            have heb := wpe_lt hne hrchain h3' hminle (min_le_left _ _) h4
            have hebE : wpe rates r.rstart.beat e.beat
                (sp - (r.rstart.measure - start.measure) / MEASURES_PER_BAR) <
                e.beat := lt_of_lt_of_le heb (min_le_left _ _)
            refine ⟨⟨le_of_lt hebE, ?_⟩, ?_, ?_⟩
            · calc conv.beats_to_measures (wpe rates r.rstart.beat e.beat
                    (sp - (r.rstart.measure - start.measure) / MEASURES_PER_BAR))
                  ≤ conv.beats_to_measures e.beat := hBmono (le_of_lt hebE)
                _ = e.measure := hBe
            · intro h0
              exfalso
              linarith
            · intro _ hEq
              have := congrArg Position.beat hEq
              dsimp at this
              linarith
          · by_cases h5 : e.beat ≤ r.rend.beat
            · rw [if_neg h4, if_pos h5, if_pos (Or.inr h5)]
              exact ⟨⟨le_rfl, le_rfl⟩, fun _ => rfl, fun hneg => absurd hneg h4⟩
            · rw [if_neg h4, if_neg h5, if_neg (not_or.2 ⟨h4, h5⟩)]
              push_neg at h5
              exact ih r.rend _ hws' hrendshead hrends' hrE (le_of_lt h5)
                (not_lt.1 h4)
      · -- the range has already begun: no gap drain
        simp only [actLoop, spMaxLoop, if_pos h1, gt_iff_lt, if_neg h2]
        by_cases h4 : powr rates start.beat (Min.min e.beat r.rend.beat) sp < 0
        · rw [if_pos h4, if_pos (Or.inl h4)]
          have hminle : start.beat ≤ Min.min e.beat r.rend.beat :=
            le_min hsb hrlow
          have heb := wpe_lt hne hrchain hsp hminle (min_le_left _ _) h4
          have hebE : wpe rates start.beat e.beat sp < e.beat :=
            lt_of_lt_of_le heb (min_le_left _ _)
          refine ⟨⟨le_of_lt hebE, ?_⟩, ?_, ?_⟩
          · calc conv.beats_to_measures (wpe rates start.beat e.beat sp)
                ≤ conv.beats_to_measures e.beat := hBmono (le_of_lt hebE)
              _ = e.measure := hBe
          · intro h0
            exfalso
            linarith
          · intro _ hEq
            have := congrArg Position.beat hEq
            dsimp at this
            linarith
        · by_cases h5 : e.beat ≤ r.rend.beat
          · rw [if_neg h4, if_pos h5, if_pos (Or.inr h5)]
            exact ⟨⟨le_rfl, le_rfl⟩, fun _ => rfl, fun hneg => absurd hneg h4⟩
          · rw [if_neg h4, if_neg h5, if_neg (not_or.2 ⟨h4, h5⟩)]
            push_neg at h5
            exact ih r.rend _ hws' hrendshead hrends' hrE (le_of_lt h5)
              (not_lt.1 h4)
    · -- all remaining ranges start at or after `e`: bare drain to `e`
      simp only [actLoop, spMaxLoop, if_neg h1]
      exact drain_case_spec hMmono hMe start sp

/-- C3, counterexample to the claim as stated: on `spdataB` (whammy range
over beats `[4,8]`), from `start = (0,0)` to `end = (8,2)` with SP `1/8`,
the forward-integrated balance is exactly zero at `(beat 4, measure 1)` —
strictly before `end` — because the bare drain to the range start consumes
the whole bar; yet `activation_end_point` returns `end` itself, since the
balance recovers inside the whammy range.  So the function does not return
the earliest position at which the balance becomes exactly zero. -/
theorem c3_counterexample :
    spdataB.activation_end_point ⟨0, 0⟩ ⟨8, 2⟩ (1/8) = ⟨8, 2⟩ ∧
    spdataB.propagate_sp_over_whammy_max ⟨0, 0⟩ ⟨4, 1⟩ (1/8) = 0 ∧
    (4:ℚ) < 8 ∧ (⟨4, 1⟩ : Position) ≠ (⟨8, 2⟩ : Position) := by
  refine ⟨?_, ?_, by norm_num, by simp⟩
  · norm_num [spdataB_eq, SpData.activation_end_point, dropRangesBefore,
      actLoop, powr, ratesBefore, ratesFrom, propLoop, wpe, wpeLoop,
      MEASURES_PER_BAR, DEFAULT_NET_SP_GAIN_RATE]
  · norm_num [spdataB_eq, SpData.propagate_sp_over_whammy_max, dropRangesBefore,
      spMaxLoop, powr, ratesBefore, ratesFrom, propLoop,
      MEASURES_PER_BAR, DEFAULT_NET_SP_GAIN_RATE]

/-- C3, amended: for well-formed inputs — a nonempty, position-sorted beat
rate table, positions aligned through the converter's (monotone)
conversions, end-sorted whammy ranges, `start ≤ end` and `sp ≥ 0` —
`activation_end_point` returns a position at most `end` in both
coordinates; it returns `end` exactly when the forward-integrated SP
balance at `end` (per `propagate_sp_over_whammy_max`) is nonnegative, and
a position different from `end` (the exhaustion point) when that balance
is negative.  The original claim's "earliest exactly-zero" clause is wrong
when the balance touches zero and recovers (see the counterexample). -/
theorem c3_amended (sd : SpData) (start e : Position) (sp : ℚ)
    (hne : sd.beat_rates ≠ [])
    (hrchain : List.Pairwise (fun a b : BeatRate => a.position ≤ b.position)
      sd.beat_rates)
    (hBmono : Monotone sd.converter.beats_to_measures)
    (hMmono : Monotone sd.converter.measures_to_beats)
    (hBe : sd.converter.beats_to_measures e.beat = e.measure)
    (hMe : sd.converter.measures_to_beats e.measure = e.beat)
    (hBs : sd.converter.beats_to_measures start.beat = start.measure)
    (hws : ∀ r ∈ sd.whammy_ranges,
      sd.converter.beats_to_measures r.rstart.beat = r.rstart.measure ∧
      sd.converter.beats_to_measures r.rend.beat = r.rend.measure ∧
      r.rstart.beat ≤ r.rend.beat)
    (hrends : List.Pairwise (fun a b : WhammyRange =>
      a.rend.beat ≤ b.rend.beat) sd.whammy_ranges)
    (hsb : start.beat ≤ e.beat) (hsp : 0 ≤ sp) :
    ((sd.activation_end_point start e sp).beat ≤ e.beat ∧
      (sd.activation_end_point start e sp).measure ≤ e.measure) ∧
    (0 ≤ sd.propagate_sp_over_whammy_max start e sp →
      sd.activation_end_point start e sp = e) ∧
    (sd.propagate_sp_over_whammy_max start e sp < 0 →
      sd.activation_end_point start e sp ≠ e) := by
  unfold SpData.activation_end_point SpData.propagate_sp_over_whammy_max
  exact actLoop_spec hne hrchain hBmono hMmono hBe hMe _ start sp
    (fun r hr => hws r (mem_dropRangesBefore hr))
    (fun r hr => le_of_lt (dropRangesBefore_rend hrends r hr))
    (List.Pairwise.sublist (dropRangesBefore_sublist start.beat
      sd.whammy_ranges) hrends)
    hBs hsb hsp

/-- The fixtures' one-anchor converter maps beats to measures by dividing
by 4, on both sides of the anchor. -/
lemma convA_beats_to_measures (b : ℚ) :
    TimeConverter.beats_to_measures ⟨[⟨0, 0⟩], 4⟩ b = b / 4 := by
  unfold TimeConverter.beats_to_measures
  by_cases h : (0:ℚ) < b
  · norm_num [anchorsFromBeat, anchorsBeforeBeat, h]
  · norm_num [anchorsFromBeat, anchorsBeforeBeat, h, DEFAULT_BEAT_RATE]
    ring

/-- The fixtures' one-anchor converter maps measures to beats by
multiplying by 4, on both sides of the anchor. -/
lemma convA_measures_to_beats (m : ℚ) :
    TimeConverter.measures_to_beats ⟨[⟨0, 0⟩], 4⟩ m = m * 4 := by
  unfold TimeConverter.measures_to_beats
  by_cases h : (0:ℚ) < m
  · norm_num [anchorsFromMeasure, anchorsBeforeMeasure, h]
  · norm_num [anchorsFromMeasure, anchorsBeforeMeasure, h, DEFAULT_BEAT_RATE]

/-- C3 witness: the amended characterisation applied to `spdataB` from
`(0,0)` to `(8,2)` with a full bar; the integrated balance stays
nonnegative, so the returned position is `end` itself. -/
theorem c3_witness :
    spdataB.activation_end_point ⟨0, 0⟩ ⟨8, 2⟩ 1 = ⟨8, 2⟩ := by
  have hconv : spdataB.converter = ⟨[⟨0, 0⟩], 4⟩ := by rw [spdataB_eq]
  refine (c3_amended spdataB ⟨0, 0⟩ ⟨8, 2⟩ 1 ?_ ?_ ?_ ?_ ?_ ?_ ?_ ?_ ?_
    (by norm_num) (by norm_num)).2.1 ?_
  · simp [spdataB_eq]
  · rw [spdataB_eq]
    simp
  · intro x y hxy
    rw [hconv, convA_beats_to_measures, convA_beats_to_measures]
    linarith
  · intro x y hxy
    rw [hconv, convA_measures_to_beats, convA_measures_to_beats]
    linarith
  · rw [hconv, convA_beats_to_measures]
    norm_num
  · rw [hconv, convA_measures_to_beats]
    norm_num
  · rw [hconv, convA_beats_to_measures]
    norm_num
  · rw [spdataB_eq]
    intro r hr
    rcases List.mem_singleton.1 hr with rfl
    refine ⟨?_, ?_, by norm_num⟩
    · rw [show (SpData.mk ⟨[⟨0, 0⟩], 4⟩ [⟨0, 1/480⟩]
        [⟨⟨4, 1⟩, ⟨8, 2⟩⟩]).converter = ⟨[⟨0, 0⟩], 4⟩ from rfl,
        convA_beats_to_measures]
      norm_num
    · rw [show (SpData.mk ⟨[⟨0, 0⟩], 4⟩ [⟨0, 1/480⟩]
        [⟨⟨4, 1⟩, ⟨8, 2⟩⟩]).converter = ⟨[⟨0, 0⟩], 4⟩ from rfl,
        convA_beats_to_measures]
      norm_num
  · rw [spdataB_eq]
    simp
  · norm_num [spdataB_eq, SpData.propagate_sp_over_whammy_max, dropRangesBefore,
      spMaxLoop, powr, ratesBefore, ratesFrom, propLoop,
      MEASURES_PER_BAR, DEFAULT_NET_SP_GAIN_RATE]

end CHOpt











